import Mathlib

/-!
The instruction set of the sed-go stream-editor engine.

A shallow embedding of `instructions.go`.  Every Go instruction mutates the
engine through a pointer and returns an `error`; here an instruction is a
function from the engine to the engine after the call paired with the returned
error (`none` is Go's `nil`).  The state is returned also when the error is not
`nil`, because the Go code has already mutated the engine at that point.

Go's `int` is embedded as `Int`: the only arithmetic in the file is `ip++` and
`lineno++`, one step per instruction executed or line consumed.  Where the
largest `int` matters, which is for the order of line numbers, the advance
instruction is also given with the arithmetic of a 64-bit `int`
(`cmd_fillnext64`); the two agree on every engine whose instruction pointer and
line counter are below the largest `int` (`cmd_fillnext64_eq`).
-/

namespace Sed

/-! ## Collaborators of the engine -/

/-- Go `error` values that reach the instructions: `io.EOF`, or any other
error, told apart by a code. -/
inductive GoError where
  | EOF
  | other (code : Nat)
  deriving DecidableEq, Repr

/-- One result of `bufio.Reader.ReadLine`: a piece of a line together with the
flag telling that the line goes on in the next read, or an error. -/
inductive ReadResult where
  | chunk (line : String) (more : Bool)
  | fail (err : GoError)
  deriving DecidableEq, Repr

/-- Modelled from the spec: the line source (the `input` field of the engine,
whose declaration is outside this file).  It is the sequence of results its
next `ReadLine` calls give, `io.EOF` for ever once the sequence is used up, and
a count of the calls made so far. -/
structure LineSource where
  pending : List ReadResult
  calls : Nat
  deriving DecidableEq, Repr

/-- Modelled from the spec: the output sink (the `output` field of the engine,
whose declaration is outside this file).  `written` is everything accepted so
far; `faults` scripts the outcome of the next writes (`none`: accepted,
`some err`: refused with `err`, nothing written); a sink whose script is used
up accepts every write. -/
structure Sink where
  written : String
  faults : List (Option GoError)
  deriving DecidableEq, Repr

/-- The call `output.WriteString(s)`. -/
def Sink.WriteString (w : Sink) (s : String) : Sink × Option GoError :=
  match w.faults with
  | [] => ({ w with written := w.written ++ s }, none)
  | none :: rest => ({ written := w.written ++ s, faults := rest }, none)
  | some err :: rest => ({ w with faults := rest }, some err)

/-- The call `output.WriteByte(c)`. -/
def Sink.WriteByte (w : Sink) (c : Char) : Sink × Option GoError :=
  w.WriteString (String.singleton c)

/-- Modelled from the spec: the `engine` struct, declared outside this file.
The fields are the ones `instructions.go` reads and writes, under their Go
names: `pat` pattern space, `hold` hold space, `nxtl` lookahead line, `appl`
append queue (`nil` is `none`), `lastl` end-of-input flag, `ip` instruction
pointer, `lineno` line counter. -/
structure engine where
  input : LineSource
  output : Sink
  pat : String
  hold : String
  nxtl : String
  appl : Option String
  lastl : Bool
  ip : Int
  lineno : Int
  deriving DecidableEq, Repr

/-- Modelled from the spec: the `condition` interface, declared outside this
file; `isMet` is a stateless predicate of the engine state. -/
abbrev condition := engine → Bool

/-! ## Simple instructions -/

def cmd_swap (e : engine) : engine × Option GoError :=
  ({ e with pat := e.hold, hold := e.pat, ip := e.ip + 1 }, none)

def cmd_get (e : engine) : engine × Option GoError :=
  ({ e with pat := e.hold, ip := e.ip + 1 }, none)

def cmd_hold (e : engine) : engine × Option GoError :=
  ({ e with hold := e.pat, ip := e.ip + 1 }, none)

/-- The Go library function `strings.Join(elems, sep)`: nothing for no element,
the element itself for one, otherwise the elements with `sep` between each two
neighbours. -/
def stringsJoin : List String → String → String
  | [], _ => ""
  | [a], _ => a
  | a :: b :: rest, sep => a ++ sep ++ stringsJoin (b :: rest) sep

def cmd_getapp (e : engine) : engine × Option GoError :=
  ({ e with pat := stringsJoin [e.pat, e.hold] "\n", ip := e.ip + 1 }, none)

def cmd_holdapp (e : engine) : engine × Option GoError :=
  ({ e with hold := stringsJoin [e.hold, e.pat] "\n", ip := e.ip + 1 }, none)

def cmd_newBranch (target : Int) (e : engine) : engine × Option GoError :=
  ({ e with ip := target }, none)

def cmd_print (e : engine) : engine × Option GoError :=
  let e1 := { e with ip := e.ip + 1 }
  match e1.output.WriteString e1.pat with
  | (o, none) =>
    match o.WriteByte '\n' with
    | (o2, err) => ({ e1 with output := o2 }, err)
  | (o, some err) => ({ e1 with output := o }, some err)

/-- The text `fmt.Sprintf("%d\n", n)`. -/
def sprintfLineno (n : Int) : String :=
  toString n ++ "\n"

def cmd_lineno (e : engine) : engine × Option GoError :=
  let e1 := { e with ip := e.ip + 1 }
  match e1.output.WriteString (sprintfLineno e1.lineno) with
  | (o, err) => ({ e1 with output := o }, err)

/-! ## Advance -/

/-- The loop `for prefix { line, prefix, err = e.input.ReadLine() ... }` of
`cmd_fillnext`: every step takes one result off the source; `lines` collects
the pieces read.  Returns the source left, the number of calls made, the pieces
and the last `err`. -/
def readLoop : List ReadResult → Nat → List String →
    List ReadResult × Nat × List String × Option GoError
  | [], n, lines => ([], n + 1, lines, some GoError.EOF)
  | ReadResult.fail err :: rest, n, lines => (rest, n + 1, lines, some err)
  | ReadResult.chunk line more :: rest, n, lines =>
    if more then readLoop rest (n + 1) (lines ++ [line])
    else (rest, n + 1, lines ++ [line], none)

/-- The Go call `strings.Join(lines, "")`. -/
def joinLines (lines : List String) : String :=
  lines.foldl (fun acc s => acc ++ s) ""

def cmd_fillnext (e : engine) : engine × Option GoError :=
  -- first, put out any stored-up appended text
  let flushed : engine × Option GoError :=
    match e.appl with
    | some text =>
      match e.output.WriteString text with
      | (o, err) => ({ e with output := o, appl := none }, err)
    | none => (e, none)
  match flushed with
  | (e1, some err) => (e1, some err)
  | (e1, none) =>
    -- just return if we are at EOF
    if e1.lastl then (e1, some GoError.EOF)
    else
      match readLoop e1.input.pending 0 [] with
      | (rest, n, lines, err) =>
        let e2 := { e1 with
          ip := e1.ip + 1, pat := e1.nxtl, lineno := e1.lineno + 1,
          input := { pending := rest, calls := e1.input.calls + n },
          nxtl := joinLines lines }
        if err = some GoError.EOF then
          if e2.nxtl.utf8ByteSize = 0 then ({ e2 with lastl := true }, none)
          else (e2, none)
        else (e2, err)

/-- The largest value of Go's `int` on a 64-bit platform, `2^63 - 1`. -/
def maxInt64 : Int := 9223372036854775807

/-- The smallest value of Go's `int` on a 64-bit platform, `-2^63`. -/
def minInt64 : Int := -9223372036854775808

/-- The value a 64-bit `int` holds after an operation whose mathematical result
is `n`: two's complement wrap-around, `((n + 2^63) mod 2^64) - 2^63`. -/
def wrapInt64 (n : Int) : Int :=
  (n + 9223372036854775808) % 18446744073709551616 - 9223372036854775808

/-- The function `cmd_fillnext` once more, with `e.ip++` and `e.lineno++` as a
64-bit `int` computes them: the increment wraps around at the largest `int`.
Everything else is as in `cmd_fillnext`. -/
def cmd_fillnext64 (e : engine) : engine × Option GoError :=
  -- first, put out any stored-up appended text
  let flushed : engine × Option GoError :=
    match e.appl with
    | some text =>
      match e.output.WriteString text with
      | (o, err) => ({ e with output := o, appl := none }, err)
    | none => (e, none)
  match flushed with
  | (e1, some err) => (e1, some err)
  | (e1, none) =>
    -- just return if we are at EOF
    if e1.lastl then (e1, some GoError.EOF)
    else
      match readLoop e1.input.pending 0 [] with
      | (rest, n, lines, err) =>
        let e2 := { e1 with
          ip := wrapInt64 (e1.ip + 1), pat := e1.nxtl, lineno := wrapInt64 (e1.lineno + 1),
          input := { pending := rest, calls := e1.input.calls + n },
          nxtl := joinLines lines }
        if err = some GoError.EOF then
          if e2.nxtl.utf8ByteSize = 0 then ({ e2 with lastl := true }, none)
          else (e2, none)
        else (e2, err)

/-! ## Conditional branches -/

structure cmd_simplecond where
  cond : condition
  metloc : Int
  unmetloc : Int

def cmd_simplecond.run (c : cmd_simplecond) (e : engine) : engine × Option GoError :=
  if c.cond e then ({ e with ip := c.metloc }, none)
  else ({ e with ip := c.unmetloc }, none)

structure cmd_twocond where
  start : condition
  «end» : condition
  metloc : Int
  unmetloc : Int
  isOn : Bool
  offFrom : Int

def newTwoCond (c1 c2 : condition) (metloc unmetloc : Int) : cmd_twocond :=
  ⟨c1, c2, metloc, unmetloc, false, 0⟩

def cmd_twocond.isLastLine (c : cmd_twocond) (e : engine) : Bool :=
  c.isOn && (c.offFrom == e.lineno)

/-- The method `(c *cmd_twocond) run`: it mutates both the receiver and the
engine, so both come back. -/
def cmd_twocond.run (c : cmd_twocond) (e : engine) :
    cmd_twocond × engine × Option GoError :=
  let c1 : cmd_twocond :=
    if c.isOn && decide (c.offFrom > 0) && decide (c.offFrom < e.lineno) then
      { c with isOn := false, offFrom := 0 }
    else c
  if !c1.isOn then
    if c1.start e then
      ({ c1 with isOn := true }, { e with ip := c1.metloc }, none)
    else
      (c1, { e with ip := c1.unmetloc }, none)
  else
    let c2 : cmd_twocond :=
      if c1.«end» e then { c1 with offFrom := e.lineno } else c1
    (c2, { e with ip := c2.metloc }, none)

/-- The method `(c *cmd_change) run`; `guard` is the activator the pointer
`c.guard` refers to (`none` for `nil`), which the method only reads. -/
def cmd_change.run (guard : Option cmd_twocond) (text : String) (e : engine) :
    engine × Option GoError :=
  let e1 := { e with ip := 0 }
  let fire : Bool :=
    match guard with
    | none => true
    | some g => g.isLastLine e1
  if fire then
    match e1.output.WriteString text with
    | (o, err) => ({ e1 with output := o }, err)
  else (e1, none)

def cmd_newAppender (text : String) (e : engine) : engine × Option GoError :=
  let e1 := { e with ip := e.ip + 1 }
  match e1.appl with
  | none => ({ e1 with appl := some text }, none)
  | some old => ({ e1 with appl := some (old ++ text) }, none)

def cmd_newInserter (text : String) (e : engine) : engine × Option GoError :=
  let e1 := { e with ip := e.ip + 1 }
  match e1.output.WriteString text with
  | (o, err) => ({ e1 with output := o }, err)

/-! ## Programs and the run loop -/

/-- Modelled from the spec: the instructions a program is made of.  In Go an
`instruction` is a closure of type `func(e *engine) error`, declared outside
this file; here it is the closed set of instructions this file builds.  A range
branch names its activator by its place in the store of the machine, and a
block replace names its guard the same way, so that both can share one
activator as the Go pointers do. -/
inductive instruction where
  | swap
  | get
  | hold
  | getapp
  | holdapp
  | branch (target : Int)
  | print
  | lineno
  | fillnext
  | simplecond (c : cmd_simplecond)
  | twocond (ref : Nat)
  | change (guard : Option Nat) (text : String)
  | appender (text : String)
  | inserter (text : String)

/-- The whole mutable state of a run: the engine and the activators that the
instructions of the program point to. -/
structure Machine where
  eng : engine
  store : List cmd_twocond

/-- Run one instruction.  `none` stands for a Go run-time failure, here a
reference to an activator that is not in the store. -/
def instruction.exec : instruction → Machine → Option (Machine × Option GoError)
  | instruction.swap, m => some ({ m with eng := (cmd_swap m.eng).1 }, (cmd_swap m.eng).2)
  | instruction.get, m => some ({ m with eng := (cmd_get m.eng).1 }, (cmd_get m.eng).2)
  | instruction.hold, m => some ({ m with eng := (cmd_hold m.eng).1 }, (cmd_hold m.eng).2)
  | instruction.getapp, m =>
    some ({ m with eng := (cmd_getapp m.eng).1 }, (cmd_getapp m.eng).2)
  | instruction.holdapp, m =>
    some ({ m with eng := (cmd_holdapp m.eng).1 }, (cmd_holdapp m.eng).2)
  | instruction.branch target, m =>
    some ({ m with eng := (cmd_newBranch target m.eng).1 }, (cmd_newBranch target m.eng).2)
  | instruction.print, m => some ({ m with eng := (cmd_print m.eng).1 }, (cmd_print m.eng).2)
  | instruction.lineno, m =>
    some ({ m with eng := (cmd_lineno m.eng).1 }, (cmd_lineno m.eng).2)
  | instruction.fillnext, m =>
    some ({ m with eng := (cmd_fillnext m.eng).1 }, (cmd_fillnext m.eng).2)
  | instruction.simplecond c, m =>
    some ({ m with eng := (c.run m.eng).1 }, (c.run m.eng).2)
  | instruction.twocond ref, m =>
    match m.store[ref]? with
    | none => none
    | some c =>
      some ({ eng := (c.run m.eng).2.1, store := m.store.set ref (c.run m.eng).1 },
        (c.run m.eng).2.2)
  | instruction.change none text, m =>
    some ({ m with eng := (cmd_change.run none text m.eng).1 },
      (cmd_change.run none text m.eng).2)
  | instruction.change (some ref) text, m =>
    match m.store[ref]? with
    | none => none
    | some g =>
      some ({ m with eng := (cmd_change.run (some g) text m.eng).1 },
        (cmd_change.run (some g) text m.eng).2)
  | instruction.appender text, m =>
    some ({ m with eng := (cmd_newAppender text m.eng).1 }, (cmd_newAppender text m.eng).2)
  | instruction.inserter text, m =>
    some ({ m with eng := (cmd_newInserter text m.eng).1 }, (cmd_newInserter text m.eng).2)

/-- How a run ends: an instruction returned an error (`io.EOF` is the normal
end), the instruction pointer left the program or an activator was missing, or
the step budget of the model ran out. -/
inductive RunResult where
  | stopped (m : Machine) (err : GoError)
  | crashed (m : Machine)
  | unfinished (m : Machine)

/-- Modelled from the spec: the run loop, which is outside this file.  It
executes the instruction at the instruction pointer again and again until one
returns an error. -/
def runLoop (prog : List instruction) : Nat → Machine → RunResult
  | 0, m => RunResult.unfinished m
  | fuel + 1, m =>
    if m.eng.ip < 0 then RunResult.crashed m
    else
      match prog[m.eng.ip.toNat]? with
      | none => RunResult.crashed m
      | some i =>
        match i.exec m with
        | none => RunResult.crashed m
        | some (m1, some err) => RunResult.stopped m1 err
        | some (m1, none) => runLoop prog fuel m1

/-! ## Inputs and scenarios -/

/-- One line of input as the line source delivers it: `pieces` are the reads
that report that more of the line follows, `rest` is the read that ends it. -/
structure InputLine where
  pieces : List String
  rest : String
  deriving DecidableEq, Repr

/-- The reads of the line source that deliver the line. -/
def InputLine.reads (l : InputLine) : List ReadResult :=
  l.pieces.map (fun p => ReadResult.chunk p true) ++ [ReadResult.chunk l.rest false]

/-- The text of the line. -/
def InputLine.text (l : InputLine) : String :=
  joinLines (l.pieces ++ [l.rest])

/-- The reads that deliver the given lines, one after the other. -/
def sourceOf : List InputLine → List ReadResult
  | [] => []
  | l :: ls => l.reads ++ sourceOf ls

/-- An engine whose lookahead and source hold the lines `ls` and nothing else:
the first line is in the lookahead, the others are still in the source, nothing
is staged for appending.  Without any line the lookahead is empty and the
end-of-input flag is set. -/
def Ready (ls : List InputLine) (e : engine) : Prop :=
  e.appl = none ∧
    match ls with
    | [] => e.nxtl = "" ∧ e.lastl = true
    | l :: more => e.nxtl = l.text ∧ e.lastl = false ∧ e.input.pending = sourceOf more

/-- An engine about to process the lines `ls`: ready for them, and no line
consumed yet. -/
def Primed (ls : List InputLine) (e : engine) : Prop :=
  e.lineno = 0 ∧ Ready ls e

/-- Execute the advance instruction `k` times in a row, stopping at the first
call that returns an error. -/
def advanceTimes : Nat → engine → engine × Option GoError
  | 0, e => (e, none)
  | k + 1, e =>
    match advanceTimes k e with
    | (e1, none) => cmd_fillnext e1
    | (e1, some err) => (e1, some err)

/-- What printing each of the lines writes: the text of every line followed by
a newline. -/
def printed (ls : List InputLine) : String :=
  joinLines (ls.map (fun l => l.text ++ "\n"))

/-- The condition "the current line is line `n`". -/
def lineIs (n : Int) : condition :=
  fun e => e.lineno == n

/-- The program of the range and block-replace scenario: advance; range branch
on activator 0; block replace guarded by activator 0; print; branch to 0. -/
def scenarioProgram (text : String) : List instruction :=
  [instruction.fillnext, instruction.twocond 0, instruction.change (some 0) text,
    instruction.print, instruction.branch 0]

/-- The activator of the scenario: from line `s` to line `t`, met target the
block replace at index 2, unmet target the print at index 3. -/
def scenarioActivator (s t : Nat) : cmd_twocond :=
  newTwoCond (lineIs s) (lineIs t) 2 3

/-- What one evaluation of an activator leaves behind: the instruction pointer
it set, the two fields of the activator after it, and the answer `isLastLine`
gives right after it. -/
structure Observed where
  ip : Int
  isOn : Bool
  offFrom : Int
  isLast : Bool
  deriving DecidableEq, Repr

/-- Evaluate the activator on the engine and observe. -/
def observe (c : cmd_twocond) (e : engine) : Observed :=
  { ip := (c.run e).2.1.ip, isOn := (c.run e).1.isOn, offFrom := (c.run e).1.offFrom,
    isLast := (c.run e).1.isLastLine (c.run e).2.1 }

/-- Evaluate an activator once on each of the engines in turn; returns the
activator after the last evaluation. -/
def evalAll : cmd_twocond → List engine → cmd_twocond
  | c, [] => c
  | c, e :: es => evalAll (c.run e).1 es

/-- Evaluate an activator once on each of the engines in turn; returns what is
observed at every evaluation. -/
def evalTrace : cmd_twocond → List engine → List Observed
  | _, [] => []
  | c, e :: es => observe c e :: evalTrace (c.run e).1 es

/-- The call `c.run e` goes through the statement `c.isOn = true`: once the
first `if` of `run` is done the activator is off, and the start condition is
met. -/
def activates (c : cmd_twocond) (e : engine) : Bool :=
  !(c.isOn && !(decide (c.offFrom > 0) && decide (c.offFrom < e.lineno))) && c.start e

/-- An engine at line `n` with empty buffers, an exhausted source and a sink
that accepts everything. -/
def engineAt (n : Int) : engine :=
  { input := { pending := [], calls := 0 }, output := { written := "", faults := [] },
    pat := "", hold := "", nxtl := "", appl := none, lastl := false, ip := 1, lineno := n }

/-- The state of the scenario at the start of a cycle, `k` lines consumed: the
instruction pointer is at the advance instruction, the sink accepts every
write, the engine is ready for the lines `ls` still to come, and the one
activator of the store is the activator of the scenario in the state the lines
up to `k` left it in. -/
def ScenarioAt (s t k : Nat) (ls : List InputLine) (m : Machine) : Prop :=
  m.eng.ip = 0 ∧ m.eng.lineno = (k : Int) ∧ m.eng.output.faults = [] ∧ Ready ls m.eng ∧
    ∃ c : cmd_twocond, m.store = [c] ∧ c.start = lineIs s ∧ c.«end» = lineIs t ∧
      c.metloc = 2 ∧ c.unmetloc = 3 ∧ c.isOn = decide (s ≤ k ∧ k ≤ t) ∧
      c.offFrom = (if k = t then (t : Int) else 0)

/-- What the cycle of the scenario for line number `k` with content `l`
writes: the line and a newline outside the range `s..t`, the replacement text
on line `t`, nothing on the other lines of the range. -/
def scenarioPiece (s t : Nat) (text : String) (k : Nat) (l : InputLine) : String :=
  if s ≤ k ∧ k ≤ t then (if k = t then text else "") else l.text ++ "\n"

/-- What the cycles of the scenario for the lines `ls`, numbered from `k + 1`,
write one after the other. -/
def scenarioOut (s t : Nat) (text : String) : Nat → List InputLine → String
  | _, [] => ""
  | k, l :: ls => scenarioPiece s t text (k + 1) l ++ scenarioOut s t text (k + 1) ls

/-- The machine a run ended in, however it ended.  For a run that used up its
step budget of `n` steps this is the machine after `n` steps. -/
def RunResult.machine : RunResult → Machine
  | RunResult.stopped m _ => m
  | RunResult.crashed m => m
  | RunResult.unfinished m => m

/-- The number `t` is an index of a program of length `L`. -/
def validIndex (L : Nat) (t : Int) : Prop :=
  0 ≤ t ∧ t < (L : Int)

/-- The instruction at index `n` of a program of length `L` keeps the
instruction pointer inside the program: a target it jumps to is an index of
the program, and an instruction that falls through (`ip++`) is not the last
one.  The targets of a range branch are the ones of the activator it points
to.  A block replace always goes to index 0. -/
def instruction.fitsAt (L : Nat) (store : List cmd_twocond) (n : Nat) : instruction → Prop
  | instruction.branch target => validIndex L target
  | instruction.simplecond c => validIndex L c.metloc ∧ validIndex L c.unmetloc
  | instruction.twocond ref =>
    ∀ c, store[ref]? = some c → validIndex L c.metloc ∧ validIndex L c.unmetloc
  | instruction.change _ _ => True
  | _ => n + 1 < L

/-- Every instruction of the program keeps the instruction pointer inside the
program. -/
def WellFormed (prog : List instruction) (store : List cmd_twocond) : Prop :=
  ∀ n i, prog[n]? = some i → instruction.fitsAt prog.length store n i

/-! ## The range activator -/

theorem evalTrace_length (c : cmd_twocond) (es : List engine) :
    (evalTrace c es).length = es.length := by
  induction es generalizing c with
  | nil => rfl
  | cons e es ih => simp [evalTrace, ih]

/-- One evaluation of a range `s..t` (`s < t`) on line `k + 1`, from the state
the activator is in after line `k`. -/
theorem twocond_phase_step (c : cmd_twocond) (e : engine) (s t k : Nat)
    (hs : 1 ≤ s) (hst : s < t)
    (hon : c.isOn = decide (s ≤ k ∧ k ≤ t))
    (hoff : c.offFrom = if k = t then (t : Int) else 0)
    (hl : e.lineno = (k : Int) + 1)
    (h1 : c.start e = decide (k + 1 = s)) (h2 : c.«end» e = decide (k + 1 = t)) :
    c.run e =
      ({ c with isOn := decide (s ≤ k + 1 ∧ k + 1 ≤ t),
                offFrom := if k + 1 = t then (t : Int) else 0 },
        { e with ip := if s ≤ k + 1 ∧ k + 1 ≤ t then c.metloc else c.unmetloc }, none) := by
  rcases c with ⟨st, en, ml, ul, act, off⟩
  simp only at hon hoff h1 h2
  subst hon hoff
  have key : k + 1 < s ∨ k + 1 = s ∨ (s ≤ k ∧ k + 1 < t) ∨ k + 1 = t ∨ k = t ∨ t < k := by
    omega
  rcases key with h | h | h | h | h | h
  · have a1 : ¬ (s ≤ k ∧ k ≤ t) := by omega
    have a2 : ¬ (s ≤ k + 1 ∧ k + 1 ≤ t) := by omega
    have a3 : ¬ (k = t) := by omega
    have a4 : ¬ (k + 1 = t) := by omega
    have a5 : ¬ (k + 1 = s) := by omega
    simp [cmd_twocond.run, a1, a2, a3, a4, a5, h1, h2, hl]
  · subst h
    have a2 : k + 1 ≤ t := by omega
    have a3 : ¬ (k = t) := by omega
    have a4 : ¬ (k + 1 = t) := by omega
    simp [cmd_twocond.run, a2, a3, a4, h1, h2, hl]
  · have a1 : (s ≤ k ∧ k ≤ t) := by omega
    have a2 : (s ≤ k + 1 ∧ k + 1 ≤ t) := by omega
    have a3 : ¬ (k = t) := by omega
    have a4 : ¬ (k + 1 = t) := by omega
    have a5 : ¬ (k + 1 = s) := by omega
    simp [cmd_twocond.run, a1, a2, a3, a4, a5, h1, h2, hl]
  · subst h
    have a1 : s ≤ k := by omega
    have a2 : s ≤ k + 1 := by omega
    have a5 : ¬ (k + 1 = s) := by omega
    simp [cmd_twocond.run, a1, a2, a5, h1, h2, hl]
  · subst h
    have a1 : s ≤ k := by omega
    have a2 : ¬ (s ≤ k + 1 ∧ k + 1 ≤ k) := by omega
    have a5 : ¬ (k + 1 = s) := by omega
    have a6 : (0 : Int) < (k : Int) := by omega
    simp [cmd_twocond.run, a1, a2, a5, a6, h1, h2, hl]
  · have a1 : ¬ (s ≤ k ∧ k ≤ t) := by omega
    have a2 : ¬ (s ≤ k + 1 ∧ k + 1 ≤ t) := by omega
    have a3 : ¬ (k = t) := by omega
    have a4 : ¬ (k + 1 = t) := by omega
    have a5 : ¬ (k + 1 = s) := by omega
    simp [cmd_twocond.run, a1, a2, a3, a4, a5, h1, h2, hl]

/-- The trace of a range `s..t` evaluated on consecutive lines, started after
line `k`. -/
theorem range_trace_from (s t : Nat) (hs : 1 ≤ s) (hst : s < t) :
    ∀ (es : List engine) (k : Nat) (c : cmd_twocond),
      c.isOn = decide (s ≤ k ∧ k ≤ t) →
      c.offFrom = (if k = t then (t : Int) else 0) →
      (∀ i e, es[i]? = some e →
        e.lineno = ((k + i : Nat) : Int) + 1 ∧ c.start e = decide (k + i + 1 = s) ∧
          c.«end» e = decide (k + i + 1 = t)) →
      ∀ i o, (evalTrace c es)[i]? = some o →
        o.ip = (if s ≤ k + i + 1 ∧ k + i + 1 ≤ t then c.metloc else c.unmetloc) ∧
          o.isOn = decide (s ≤ k + i + 1 ∧ k + i + 1 ≤ t) ∧
          o.isLast = decide (k + i + 1 = t) := by
  intro es
  induction es with
  | nil => intro k c _ _ _ i o h; simp [evalTrace] at h
  | cons e es ih =>
    intro k c hon hoff hes i o h
    have h0 := hes 0 e (by simp)
    have hstep := twocond_phase_step c e s t k hs hst hon hoff
      (by simpa using h0.1) (by simpa using h0.2.1) (by simpa using h0.2.2)
    cases i with
    | zero =>
      simp only [evalTrace, List.getElem?_cons_zero, Option.some.injEq] at h
      subst h
      simp only [observe, hstep, cmd_twocond.isLastLine, Nat.add_zero]
      refine ⟨trivial, trivial, ?_⟩
      have h01 := h0.1
      by_cases hk : k + 1 = t
      · subst hk
        have a1 : s ≤ k + 1 := by omega
        simp [a1, h01]
      · simp only [hk, if_false, decide_False]
        by_cases hin : s ≤ k + 1 ∧ k + 1 ≤ t
        · simp only [hin, and_self, decide_True, Bool.true_and, h01]
          simp only [Nat.add_zero, beq_eq_false_iff_ne, ne_eq]
          omega
        · simp [hin]
    | succ j =>
      simp only [evalTrace, List.getElem?_cons_succ] at h
      have hrec := ih (k + 1) (c.run e).1
        (by rw [hstep]) (by rw [hstep])
        (by
          intro i2 e2 h2
          have := hes (i2 + 1) e2 (by simpa using h2)
          rw [hstep]
          have e1 : k + 1 + i2 = k + (i2 + 1) := by omega
          rw [e1]
          exact this)
        j o h
      have e1 : k + 1 + j = k + (j + 1) := by omega
      rw [e1, hstep] at hrec
      exact hrec

/-- C2 (range inclusivity): a freshly built activator whose start condition
matches line `s` only and whose end condition matches line `t` only, with
`1 ≤ s < t`, is evaluated once per line on lines `1, 2, ..., N` (entry `k` of
the trace is line `k + 1`).  There is one observation per line; the met branch
is taken exactly on the lines `s..t` and the unmet branch on every other line,
the activator is on after the evaluation exactly on the lines `s..t`, and
`isLastLine` asked right after the evaluation is true exactly on line `t`. -/
theorem range_inclusive (start stop : condition) (metloc unmetloc : Int) (s t : Nat)
    (es : List engine) (hs : 1 ≤ s) (hst : s < t)
    (hes : ∀ i : Fin es.length, (es.get i).lineno = ((i : Nat) : Int) + 1 ∧
      start (es.get i) = decide ((i : Nat) + 1 = s) ∧
      stop (es.get i) = decide ((i : Nat) + 1 = t)) :
    (evalTrace (newTwoCond start stop metloc unmetloc) es).length = es.length ∧
      ∀ (k : Nat) (o : Observed),
        (evalTrace (newTwoCond start stop metloc unmetloc) es)[k]? = some o →
        o.ip = (if s ≤ k + 1 ∧ k + 1 ≤ t then metloc else unmetloc) ∧
          o.isOn = decide (s ≤ k + 1 ∧ k + 1 ≤ t) ∧
          o.isLast = decide (k + 1 = t) := by
  refine ⟨evalTrace_length _ _, ?_⟩
  intro k o h
  have hfresh_on : (newTwoCond start stop metloc unmetloc).isOn = decide (s ≤ 0 ∧ 0 ≤ t) := by
    have : ¬ (s ≤ 0) := by omega
    simp [newTwoCond, this]
  have hfresh_off : (newTwoCond start stop metloc unmetloc).offFrom
      = (if 0 = t then (t : Int) else 0) := by
    have : ¬ (0 = t) := by omega
    simp [newTwoCond, this]
  have := range_trace_from s t hs hst es 0 (newTwoCond start stop metloc unmetloc)
    hfresh_on hfresh_off
    (by
      intro i e hi
      rcases List.getElem?_eq_some.mp hi with ⟨hlt, rfl⟩
      have := hes ⟨i, hlt⟩
      simpa [newTwoCond] using this)
    k o h
  simpa [newTwoCond] using this

/-- The witness named in C2: start on line 2, end on line 4, five lines. -/
theorem range_inclusive_witness :
    (∀ i : Fin 5,
      ([engineAt 1, engineAt 2, engineAt 3, engineAt 4, engineAt 5].get i).lineno
          = ((i : Nat) : Int) + 1 ∧
        lineIs 2 ([engineAt 1, engineAt 2, engineAt 3, engineAt 4, engineAt 5].get i)
          = decide ((i : Nat) + 1 = 2) ∧
        lineIs 4 ([engineAt 1, engineAt 2, engineAt 3, engineAt 4, engineAt 5].get i)
          = decide ((i : Nat) + 1 = 4)) ∧
      ((evalTrace (newTwoCond (lineIs 2) (lineIs 4) 2 3)
          [engineAt 1, engineAt 2, engineAt 3, engineAt 4, engineAt 5]).length = 5 ∧
        ∀ (k : Nat) (o : Observed),
          (evalTrace (newTwoCond (lineIs 2) (lineIs 4) 2 3)
            [engineAt 1, engineAt 2, engineAt 3, engineAt 4, engineAt 5])[k]? = some o →
          o.ip = (if 2 ≤ k + 1 ∧ k + 1 ≤ 4 then 2 else 3) ∧
            o.isOn = decide (2 ≤ k + 1 ∧ k + 1 ≤ 4) ∧
            o.isLast = decide (k + 1 = 4)) :=
  ⟨by decide,
    range_inclusive (lineIs 2) (lineIs 4) 2 3 2 4
      [engineAt 1, engineAt 2, engineAt 3, engineAt 4, engineAt 5]
      (by decide) (by decide) (by decide)⟩

/-- One evaluation, on line `k + 1`, of an activator whose two conditions both
match line `s` only, from the state the activator is in after line `k`. -/
theorem twocond_same_line_step (c : cmd_twocond) (e : engine) (s k : Nat)
    (hon : c.isOn = decide (s ≤ k)) (hoff : c.offFrom = 0)
    (h1 : c.start e = decide (k + 1 = s)) (h2 : c.«end» e = decide (k + 1 = s)) :
    c.run e =
      ({ c with isOn := decide (s ≤ k + 1) },
        { e with ip := if s ≤ k + 1 then c.metloc else c.unmetloc }, none) := by
  rcases c with ⟨st, en, ml, ul, act, off⟩
  simp only at hon hoff h1 h2
  subst hon hoff
  have key : k + 1 < s ∨ k + 1 = s ∨ s ≤ k := by omega
  rcases key with h | h | h
  · have a1 : ¬ (s ≤ k) := by omega
    have a2 : ¬ (s ≤ k + 1) := by omega
    have a3 : ¬ (k + 1 = s) := by omega
    simp [cmd_twocond.run, a1, a2, a3, h1, h2]
  · subst h
    simp [cmd_twocond.run, h1, h2]
  · have a2 : s ≤ k + 1 := by omega
    have a3 : ¬ (k + 1 = s) := by omega
    simp [cmd_twocond.run, h, a2, a3, h1, h2]

/-- The trace of an activator whose two conditions both match line `s` only,
evaluated on consecutive lines, started after line `k`. -/
theorem same_line_trace_from (s : Nat) :
    ∀ (es : List engine) (k : Nat) (c : cmd_twocond),
      c.isOn = decide (s ≤ k) → c.offFrom = 0 →
      (∀ i e, es[i]? = some e →
        c.start e = decide (k + i + 1 = s) ∧ c.«end» e = decide (k + i + 1 = s)) →
      ∀ i o, (evalTrace c es)[i]? = some o →
        o.ip = (if s ≤ k + i + 1 then c.metloc else c.unmetloc) ∧
          o.isOn = decide (s ≤ k + i + 1) ∧ o.offFrom = 0 := by
  intro es
  induction es with
  | nil => intro k c _ _ _ i o h; simp [evalTrace] at h
  | cons e es ih =>
    intro k c hon hoff hes i o h
    have h0 := hes 0 e (by simp)
    have hstep := twocond_same_line_step c e s k hon hoff
      (by simpa using h0.1) (by simpa using h0.2)
    cases i with
    | zero =>
      simp only [evalTrace, List.getElem?_cons_zero, Option.some.injEq] at h
      subst h
      simp only [observe, hstep, Nat.add_zero]
      exact ⟨trivial, trivial, hoff⟩
    | succ j =>
      simp only [evalTrace, List.getElem?_cons_succ] at h
      have hrec := ih (k + 1) (c.run e).1
        (by rw [hstep]) (by rw [hstep]; exact hoff)
        (by
          intro i2 e2 h2
          have := hes (i2 + 1) e2 (by simpa using h2)
          rw [hstep]
          have e1 : k + 1 + i2 = k + (i2 + 1) := by omega
          rw [e1]
          exact this)
        j o h
      have e1 : k + 1 + j = k + (j + 1) := by omega
      rw [e1, hstep] at hrec
      exact hrec

/-- C3, as stated, fails: start and end condition both match line 1 and no
other line, two lines of input (`s = 1 < N = 2`).  The claim asks for the met
target (2) on line 1 and the unmet target (3) on line 2; the code takes the met
target on line 2 as well. -/
theorem same_line_range_counterexample :
    ¬ (∀ (k : Nat) (o : Observed),
      (evalTrace (newTwoCond (lineIs 1) (lineIs 1) 2 3) [engineAt 1, engineAt 2])[k]? = some o →
        o.ip = (if k + 1 = 1 then 2 else 3)) := by
  intro h
  have h1 := h 1 (observe (cmd_twocond.run (newTwoCond (lineIs 1) (lineIs 1) 2 3)
    (engineAt 1)).1 (engineAt 2)) rfl
  revert h1
  decide

/-- C3, amended: a freshly built activator whose start condition and end
condition both match line `s ≥ 1` and no other line is evaluated once per line
on lines `1, 2, ..., N` (entry `k` of the trace is line `k + 1`).  It takes the
unmet branch on every line before `s` and the met branch on line `s` and on
every later line; from line `s` on the activator is on, and no deactivation
line is ever recorded. -/
theorem same_line_range_stays_on (start stop : condition) (metloc unmetloc : Int) (s : Nat)
    (es : List engine) (hs : 1 ≤ s)
    (hes : ∀ i : Fin es.length,
      start (es.get i) = decide ((i : Nat) + 1 = s) ∧
      stop (es.get i) = decide ((i : Nat) + 1 = s)) :
    (evalTrace (newTwoCond start stop metloc unmetloc) es).length = es.length ∧
      ∀ (k : Nat) (o : Observed),
        (evalTrace (newTwoCond start stop metloc unmetloc) es)[k]? = some o →
        o.ip = (if s ≤ k + 1 then metloc else unmetloc) ∧
          o.isOn = decide (s ≤ k + 1) ∧ o.offFrom = 0 := by
  refine ⟨evalTrace_length _ _, ?_⟩
  intro k o h
  have hfresh_on : (newTwoCond start stop metloc unmetloc).isOn = decide (s ≤ 0) := by
    have : ¬ (s ≤ 0) := by omega
    simp [newTwoCond, this]
  have := same_line_trace_from s es 0 (newTwoCond start stop metloc unmetloc)
    hfresh_on rfl
    (by
      intro i e hi
      rcases List.getElem?_eq_some.mp hi with ⟨hlt, rfl⟩
      have := hes ⟨i, hlt⟩
      simpa [newTwoCond] using this)
    k o h
  simpa [newTwoCond] using this

/-- The amended C3 at start = end = line 2 on three lines. -/
theorem same_line_range_stays_on_witness :
    (1 ≤ 2 ∧ ∀ i : Fin 3,
      lineIs 2 ([engineAt 1, engineAt 2, engineAt 3].get i) = decide ((i : Nat) + 1 = 2) ∧
        lineIs 2 ([engineAt 1, engineAt 2, engineAt 3].get i) = decide ((i : Nat) + 1 = 2)) ∧
      ((evalTrace (newTwoCond (lineIs 2) (lineIs 2) 2 3)
          [engineAt 1, engineAt 2, engineAt 3]).length = 3 ∧
        ∀ (k : Nat) (o : Observed),
          (evalTrace (newTwoCond (lineIs 2) (lineIs 2) 2 3)
            [engineAt 1, engineAt 2, engineAt 3])[k]? = some o →
          o.ip = (if 2 ≤ k + 1 then 2 else 3) ∧
            o.isOn = decide (2 ≤ k + 1) ∧ o.offFrom = 0) :=
  ⟨⟨by decide, by decide⟩,
    same_line_range_stays_on (lineIs 2) (lineIs 2) 2 3 2
      [engineAt 1, engineAt 2, engineAt 3] (by decide) (by decide)⟩

/-- An evaluation never touches the conditions and targets of an activator. -/
theorem twocond_run_static (c : cmd_twocond) (e : engine) :
    (c.run e).1.start = c.start ∧ (c.run e).1.«end» = c.«end» ∧
      (c.run e).1.metloc = c.metloc ∧ (c.run e).1.unmetloc = c.unmetloc := by
  rcases c with ⟨st, en, ml, ul, act, off⟩
  simp only [cmd_twocond.run]
  split_ifs <;> simp

/-- A recorded deactivation line implies the activator is on; every evaluation
keeps this. -/
theorem twocond_run_inv (c : cmd_twocond) (e : engine)
    (h : c.offFrom ≠ 0 → c.isOn = true) :
    (c.run e).1.offFrom ≠ 0 → (c.run e).1.isOn = true := by
  rcases c with ⟨st, en, ml, ul, act, off⟩
  simp only at h
  simp only [cmd_twocond.run]
  cases act <;> split_ifs <;> simp_all

theorem evalAll_static (es : List engine) :
    ∀ c : cmd_twocond, (evalAll c es).start = c.start ∧ (evalAll c es).«end» = c.«end» ∧
      (evalAll c es).metloc = c.metloc ∧ (evalAll c es).unmetloc = c.unmetloc := by
  induction es with
  | nil => intro c; exact ⟨rfl, rfl, rfl, rfl⟩
  | cons e es ih =>
    intro c
    have h1 := ih (c.run e).1
    have h2 := twocond_run_static c e
    simp only [evalAll]
    exact ⟨h1.1.trans h2.1, h1.2.1.trans h2.2.1, h1.2.2.1.trans h2.2.2.1,
      h1.2.2.2.trans h2.2.2.2⟩

theorem evalAll_inv (es : List engine) :
    ∀ c : cmd_twocond, (c.offFrom ≠ 0 → c.isOn = true) →
      ((evalAll c es).offFrom ≠ 0 → (evalAll c es).isOn = true) := by
  induction es with
  | nil => intro c h; exact h
  | cons e es ih => intro c h; exact ih _ (twocond_run_inv c e h)

theorem evalAll_append (es fs : List engine) :
    ∀ c : cmd_twocond, evalAll c (es ++ fs) = evalAll (evalAll c es) fs := by
  induction es with
  | nil => intro c; rfl
  | cons e es ih => intro c; simp [evalAll, ih]

/-- An evaluation that activates leaves the activator on with no deactivation
line recorded. -/
theorem twocond_run_activates (c : cmd_twocond) (e : engine)
    (h : c.offFrom ≠ 0 → c.isOn = true) (hact : activates c e = true) :
    (c.run e).1.isOn = true ∧ (c.run e).1.offFrom = 0 := by
  rcases c with ⟨st, en, ml, ul, act, off⟩
  simp only [activates] at hact
  simp only at h
  simp only [cmd_twocond.run]
  cases act <;> split_ifs <;> simp_all

/-- An evaluation of an activator that is on, has no deactivation line
recorded and whose end condition is not met changes nothing but the
instruction pointer, which goes to the met target. -/
theorem twocond_run_open (c : cmd_twocond) (e : engine)
    (hon : c.isOn = true) (hoff : c.offFrom = 0) (hend : c.«end» e = false) :
    c.run e = (c, { e with ip := c.metloc }, none) := by
  rcases c with ⟨st, en, ml, ul, act, off⟩
  simp only at hon hoff hend
  subst hon hoff
  simp [cmd_twocond.run, hend]

theorem open_range_trace (post : List engine) :
    ∀ c : cmd_twocond, c.isOn = true → c.offFrom = 0 → (∀ x ∈ post, c.«end» x = false) →
      evalAll c post = c ∧
        ∀ o ∈ evalTrace c post, o.ip = c.metloc ∧ o.isOn = true ∧ o.offFrom = 0 := by
  induction post with
  | nil => intro c _ _ _; exact ⟨rfl, by simp [evalTrace]⟩
  | cons x xs ih =>
    intro c hon hoff hend
    have hstep := twocond_run_open c x hon hoff (hend x (by simp))
    have hrec := ih c hon hoff (fun y hy => hend y (by simp [hy]))
    simp only [evalAll, evalTrace, hstep, List.mem_cons, forall_eq_or_imp]
    refine ⟨hrec.1, ?_, hrec.2⟩
    simp [observe, hstep, hon, hoff]

/-- C4 (open-ended range): take an activator built by `newTwoCond` and
evaluated any number of times (`before`), then an evaluation on `e` that
activates it.  If the end condition is false on every later evaluation
(`later`, at any line numbers), then every one of them takes the met branch
and leaves the activator on with no deactivation line recorded, and that is
also the state of the activator after the last of them. -/
theorem open_ended_range (start stop : condition) (metloc unmetloc : Int)
    (before : List engine) (e : engine) (later : List engine)
    (hact : activates (evalAll (newTwoCond start stop metloc unmetloc) before) e = true)
    (hend : ∀ x ∈ later, stop x = false) :
    (evalTrace (evalAll (newTwoCond start stop metloc unmetloc) (before ++ [e])) later).length
        = later.length ∧
      (∀ o ∈ evalTrace (evalAll (newTwoCond start stop metloc unmetloc) (before ++ [e])) later,
        o.ip = metloc ∧ o.isOn = true ∧ o.offFrom = 0) ∧
      (evalAll (newTwoCond start stop metloc unmetloc) (before ++ [e] ++ later)).isOn = true ∧
      (evalAll (newTwoCond start stop metloc unmetloc) (before ++ [e] ++ later)).offFrom = 0 := by
  have hstat := evalAll_static before (newTwoCond start stop metloc unmetloc)
  have hinv := evalAll_inv before (newTwoCond start stop metloc unmetloc)
    (by simp [newTwoCond])
  have hnow := twocond_run_activates _ e hinv hact
  have hstat2 := twocond_run_static (evalAll (newTwoCond start stop metloc unmetloc) before) e
  have hmid : evalAll (newTwoCond start stop metloc unmetloc) (before ++ [e])
      = (cmd_twocond.run (evalAll (newTwoCond start stop metloc unmetloc) before) e).1 := by
    rw [evalAll_append]; rfl
  have hopen := open_range_trace later
    (evalAll (newTwoCond start stop metloc unmetloc) (before ++ [e]))
    (by rw [hmid]; exact hnow.1) (by rw [hmid]; exact hnow.2)
    (by
      intro x hx
      rw [hmid, hstat2.2.1, hstat.2.1]
      exact hend x hx)
  have hml : (evalAll (newTwoCond start stop metloc unmetloc) (before ++ [e])).metloc
      = metloc := by
    rw [hmid, hstat2.2.2.1, hstat.2.2.1]; rfl
  refine ⟨evalTrace_length _ _, ?_, ?_, ?_⟩
  · intro o ho
    have := hopen.2 o ho
    rw [hml] at this
    exact this
  · rw [evalAll_append, hopen.1, hmid]; exact hnow.1
  · rw [evalAll_append, hopen.1, hmid]; exact hnow.2

/-- C4 on a range that starts on line 2 and would end on line 9: evaluated on
line 1, activated on line 2, then evaluated on lines 3, 3, 5 and 8. -/
theorem open_ended_range_witness :
    (activates (evalAll (newTwoCond (lineIs 2) (lineIs 9) 2 3) [engineAt 1]) (engineAt 2) = true ∧
      ∀ x ∈ [engineAt 3, engineAt 3, engineAt 5, engineAt 8], lineIs 9 x = false) ∧
    ((evalTrace (evalAll (newTwoCond (lineIs 2) (lineIs 9) 2 3) ([engineAt 1] ++ [engineAt 2]))
        [engineAt 3, engineAt 3, engineAt 5, engineAt 8]).length
        = [engineAt 3, engineAt 3, engineAt 5, engineAt 8].length ∧
      (∀ o ∈ evalTrace
          (evalAll (newTwoCond (lineIs 2) (lineIs 9) 2 3) ([engineAt 1] ++ [engineAt 2]))
          [engineAt 3, engineAt 3, engineAt 5, engineAt 8],
        o.ip = 2 ∧ o.isOn = true ∧ o.offFrom = 0) ∧
      (evalAll (newTwoCond (lineIs 2) (lineIs 9) 2 3)
        ([engineAt 1] ++ [engineAt 2] ++ [engineAt 3, engineAt 3, engineAt 5, engineAt 8])).isOn
        = true ∧
      (evalAll (newTwoCond (lineIs 2) (lineIs 9) 2 3)
        ([engineAt 1] ++ [engineAt 2] ++ [engineAt 3, engineAt 3, engineAt 5, engineAt 8])).offFrom
        = 0) :=
  ⟨⟨by decide, by decide⟩,
    open_ended_range (lineIs 2) (lineIs 9) 2 3 [engineAt 1] (engineAt 2)
      [engineAt 3, engineAt 3, engineAt 5, engineAt 8] (by decide) (by decide)⟩

/-! ## Advance -/

theorem joinLines_foldl (l : List String) :
    ∀ a : String, l.foldl (fun acc s => acc ++ s) a = a ++ joinLines l := by
  induction l with
  | nil => intro a; simp [joinLines]
  | cons x xs ih =>
    intro a
    simp only [joinLines, List.foldl_cons]
    rw [ih (a ++ x), ih ("" ++ x), String.empty_append, String.append_assoc]

theorem joinLines_nil : joinLines [] = "" := rfl

theorem joinLines_cons (x : String) (xs : List String) :
    joinLines (x :: xs) = x ++ joinLines xs := by
  simp only [joinLines, List.foldl_cons]
  rw [joinLines_foldl xs ("" ++ x), String.empty_append]
  rfl

theorem joinLines_append (xs ys : List String) :
    joinLines (xs ++ ys) = joinLines xs ++ joinLines ys := by
  induction xs with
  | nil => simp [joinLines_nil]
  | cons x xs ih => simp [joinLines_cons, ih, String.append_assoc]

theorem utf8ByteSize_eq_zero (s : String) : s.utf8ByteSize = 0 ↔ s = "" := by
  constructor
  · intro h
    rcases s with ⟨l⟩
    cases l with
    | nil => rfl
    | cons c cs =>
      simp [String.utf8ByteSize, String.utf8ByteSize.go] at h
      have := Char.utf8Size_pos c
      omega
  · rintro rfl; rfl

/-- Reading a whole line: the loop takes exactly the reads of the line. -/
theorem readLoop_pieces (r : String) (rest : List ReadResult) :
    ∀ (ps : List String) (n : Nat) (acc : List String),
      readLoop (ps.map (fun p => ReadResult.chunk p true) ++ [ReadResult.chunk r false] ++ rest)
          n acc
        = (rest, n + ps.length + 1, acc ++ ps ++ [r], none) := by
  intro ps
  induction ps with
  | nil => intro n acc; simp [readLoop]
  | cons p ps ih =>
    intro n acc
    have hstep : readLoop (ReadResult.chunk p true ::
        (ps.map (fun p => ReadResult.chunk p true) ++ [ReadResult.chunk r false] ++ rest)) n acc
        = readLoop (ps.map (fun p => ReadResult.chunk p true) ++ [ReadResult.chunk r false]
            ++ rest) (n + 1) (acc ++ [p]) := by
      simp [readLoop]
    simp only [List.map_cons, List.cons_append]
    rw [hstep, ih (n + 1) (acc ++ [p])]
    simp only [List.length_cons, List.append_assoc, List.singleton_append, Prod.mk.injEq,
      true_and, and_true]
    omega

theorem readLoop_line (l : InputLine) (rest : List ReadResult) (n : Nat) (acc : List String) :
    readLoop (l.reads ++ rest) n acc
      = (rest, n + l.pieces.length + 1, acc ++ l.pieces ++ [l.rest], none) := by
  simpa [InputLine.reads] using readLoop_pieces l.rest rest l.pieces n acc

/-- Advance with nothing staged while a further line is in the source. -/
theorem fillnext_line (e : engine) (l : InputLine) (rest : List ReadResult)
    (happl : e.appl = none) (hlast : e.lastl = false)
    (hsrc : e.input.pending = l.reads ++ rest) :
    cmd_fillnext e =
      ({ e with ip := e.ip + 1, pat := e.nxtl, lineno := e.lineno + 1,
                input := { pending := rest, calls := e.input.calls + (l.pieces.length + 1) },
                nxtl := l.text }, none) := by
  simp only [cmd_fillnext, happl, hlast, hsrc, readLoop_line, Bool.false_eq_true, if_false]
  simp [InputLine.text]

/-- Advance with nothing staged on an exhausted source. -/
theorem fillnext_exhausted (e : engine)
    (happl : e.appl = none) (hlast : e.lastl = false) (hsrc : e.input.pending = []) :
    cmd_fillnext e =
      ({ e with ip := e.ip + 1, pat := e.nxtl, lineno := e.lineno + 1,
                input := { pending := [], calls := e.input.calls + 1 },
                nxtl := "", lastl := true }, none) := by
  simp only [cmd_fillnext, happl, hlast, hsrc, readLoop, Bool.false_eq_true, if_false]
  simp [joinLines, utf8ByteSize_eq_zero]

/-- Advance with nothing staged once the end-of-input flag is set. -/
theorem fillnext_at_end (e : engine) (happl : e.appl = none) (hlast : e.lastl = true) :
    cmd_fillnext e = (e, some GoError.EOF) := by
  simp [cmd_fillnext, happl, hlast]

/-- Advance on an engine that is ready for the lines `l :: more`: it succeeds,
loads `l` and leaves the engine ready for `more`. -/
theorem fillnext_ready (l : InputLine) (more : List InputLine) (e : engine)
    (h : Ready (l :: more) e) :
    ∃ e1, cmd_fillnext e = (e1, none) ∧ e1.pat = l.text ∧ e1.lineno = e.lineno + 1 ∧
      Ready more e1 ∧ e1.output = e.output ∧ e1.ip = e.ip + 1 ∧ e1.hold = e.hold := by
  obtain ⟨happl, hnxt, hlast, hsrc⟩ := h
  cases more with
  | nil =>
    refine ⟨_, fillnext_exhausted e happl hlast hsrc, hnxt, rfl, ?_, rfl, rfl, rfl⟩
    exact ⟨happl, rfl, rfl⟩
  | cons l2 m2 =>
    refine ⟨_, fillnext_line e l2 (sourceOf m2) happl hlast hsrc, hnxt, rfl, ?_, rfl, rfl, rfl⟩
    exact ⟨happl, rfl, hlast, rfl⟩

theorem advanceTimes_front (k : Nat) :
    ∀ e e1 : engine, cmd_fillnext e = (e1, none) →
      advanceTimes (k + 1) e = advanceTimes k e1 := by
  induction k with
  | zero =>
    intro e e1 h
    simp [advanceTimes, h]
  | succ k ih =>
    intro e e1 h
    have := ih e e1 h
    rw [advanceTimes, this]
    rfl

/-- Line accounting from any line count: on an engine ready for the lines `ls`
the advance instruction succeeds once per line and then reports `io.EOF`. -/
theorem advance_lines (ls : List InputLine) :
    ∀ e : engine, Ready ls e →
      (∀ k, k ≤ ls.length → (advanceTimes k e).2 = none) ∧
      (∀ k l, ls[k]? = some l →
        (advanceTimes (k + 1) e).1.pat = l.text ∧
          (advanceTimes (k + 1) e).1.lineno = e.lineno + ((k : Int) + 1)) ∧
      (advanceTimes (ls.length + 1) e).2 = some GoError.EOF ∧
      (advanceTimes (ls.length + 1) e).1.lineno = e.lineno + (ls.length : Int) := by
  induction ls with
  | nil =>
    intro e h
    obtain ⟨happl, _, hlast⟩ := h
    refine ⟨?_, ?_, ?_, ?_⟩
    · intro k hk
      have : k = 0 := by simpa using hk
      subst this; rfl
    · intro k l hl; simp at hl
    · simp [advanceTimes, fillnext_at_end e happl hlast]
    · simp [advanceTimes, fillnext_at_end e happl hlast]
  | cons l more ih =>
    intro e h
    obtain ⟨e1, hstep, hpat, hline, hready, _, _, _⟩ := fillnext_ready l more e h
    obtain ⟨ih1, ih2, ih3, ih4⟩ := ih e1 hready
    refine ⟨?_, ?_, ?_, ?_⟩
    · intro k hk
      cases k with
      | zero => rfl
      | succ j =>
        rw [advanceTimes_front j e e1 hstep]
        exact ih1 j (by simpa using hk)
    · intro k x hx
      cases k with
      | zero =>
        simp only [List.getElem?_cons_zero, Option.some.injEq] at hx
        subst hx
        rw [advanceTimes_front 0 e e1 hstep]
        simp [advanceTimes, hpat, hline]
      | succ j =>
        simp only [List.getElem?_cons_succ] at hx
        rw [advanceTimes_front (j + 1) e e1 hstep]
        have := ih2 j x hx
        refine ⟨this.1, ?_⟩
        rw [this.2, hline]
        push_cast
        omega
    · rw [List.length_cons, advanceTimes_front (more.length + 1) e e1 hstep]
      exact ih3
    · rw [List.length_cons, advanceTimes_front (more.length + 1) e e1 hstep, ih4, hline]
      push_cast
      omega

/-- C5 (line accounting): on an engine primed for an input of `N` lines
(`line_number = 0`, the first line in the lookahead, the others in the source,
each delivered in one or more reads; for `N = 0` an empty lookahead and the
end-of-input flag set), executing the advance instruction again and again
succeeds on each of the first `N` calls and returns `io.EOF` on call `N + 1`,
after which `line_number` is `N`; after call `k + 1` (for `k < N`) the pattern
space is line `k + 1` of the input and `line_number` is `k + 1`. -/
theorem line_accounting (ls : List InputLine) (e : engine) (h : Primed ls e) :
    (∀ k, k ≤ ls.length → (advanceTimes k e).2 = none) ∧
      (∀ k l, ls[k]? = some l →
        (advanceTimes (k + 1) e).1.pat = l.text ∧
          (advanceTimes (k + 1) e).1.lineno = (k : Int) + 1) ∧
      (advanceTimes (ls.length + 1) e).2 = some GoError.EOF ∧
      (advanceTimes (ls.length + 1) e).1.lineno = (ls.length : Int) := by
  obtain ⟨h0, hready⟩ := h
  have := advance_lines ls e hready
  simpa [h0] using this

/-- C5 on the three lines `a`, `bcd` (delivered in three reads) and the empty
line. -/
theorem line_accounting_witness :
    Primed [⟨[], "a"⟩, ⟨["b", "c"], "d"⟩, ⟨[], ""⟩]
        { engineAt 0 with
          nxtl := "a"
          input := { pending := sourceOf [⟨["b", "c"], "d"⟩, ⟨[], ""⟩], calls := 0 } } ∧
      ((∀ k, k ≤ 3 →
        (advanceTimes k { engineAt 0 with
          nxtl := "a"
          input := { pending := sourceOf [⟨["b", "c"], "d"⟩, ⟨[], ""⟩], calls := 0 } }).2
          = none) ∧
      (∀ k l, ([⟨[], "a"⟩, ⟨["b", "c"], "d"⟩, ⟨[], ""⟩] : List InputLine)[k]? = some l →
        (advanceTimes (k + 1) { engineAt 0 with
          nxtl := "a"
          input := { pending := sourceOf [⟨["b", "c"], "d"⟩, ⟨[], ""⟩], calls := 0 } }).1.pat
            = l.text ∧
        (advanceTimes (k + 1) { engineAt 0 with
          nxtl := "a"
          input := { pending := sourceOf [⟨["b", "c"], "d"⟩, ⟨[], ""⟩], calls := 0 } }).1.lineno
            = (k : Int) + 1) ∧
      (advanceTimes (3 + 1) { engineAt 0 with
          nxtl := "a"
          input := { pending := sourceOf [⟨["b", "c"], "d"⟩, ⟨[], ""⟩], calls := 0 } }).2
        = some GoError.EOF ∧
      (advanceTimes (3 + 1) { engineAt 0 with
          nxtl := "a"
          input := { pending := sourceOf [⟨["b", "c"], "d"⟩, ⟨[], ""⟩], calls := 0 } }).1.lineno
        = 3) :=
  ⟨⟨rfl, rfl, rfl, rfl, rfl⟩,
    line_accounting [⟨[], "a"⟩, ⟨["b", "c"], "d"⟩, ⟨[], ""⟩] _ ⟨rfl, rfl, rfl, rfl, rfl⟩⟩

/-- Advance always leaves the append queue empty. -/
theorem fillnext_appl (e : engine) : (cmd_fillnext e).1.appl = none := by
  simp only [cmd_fillnext]
  cases happl : e.appl with
  | none =>
    simp only
    by_cases hl : e.lastl = true
    · simp [hl, happl]
    · simp only [hl, if_false]
      split_ifs <;> simp [happl]
  | some text =>
    simp only
    cases hw : (e.output.WriteString text).2 with
    | some err => simp
    | none =>
      simp only
      by_cases hl : e.lastl = true
      · simp [hl]
      · simp only [hl, if_false]
        split_ifs <;> simp

/-- Advance with nothing staged writes nothing. -/
theorem fillnext_output (e : engine) (h : e.appl = none) :
    (cmd_fillnext e).1.output = e.output := by
  simp only [cmd_fillnext, h]
  by_cases hl : e.lastl = true
  · simp [hl]
  · simp only [hl, if_false]
    split_ifs <;> simp

/-- Advance with staged text that the sink accepts is the flush followed by an
advance with nothing staged. -/
theorem fillnext_flush (e : engine) (text : String) (h : e.appl = some text)
    (hw : (e.output.WriteString text).2 = none) :
    cmd_fillnext e
      = cmd_fillnext { e with output := (e.output.WriteString text).1, appl := none } := by
  simp only [cmd_fillnext, h, hw]

/-- Advance with staged text that the sink refuses: the error of the write is
returned, the queue is dropped and no line is loaded. -/
theorem fillnext_flush_refused (e : engine) (text : String) (err : GoError)
    (h : e.appl = some text) (hw : (e.output.WriteString text).2 = some err) :
    cmd_fillnext e
      = ({ e with output := (e.output.WriteString text).1, appl := none }, some err) := by
  simp only [cmd_fillnext, h, hw]

/-- A write the sink accepts appends the text to what was written. -/
theorem WriteString_accepted (w : Sink) (s : String) (h : (w.WriteString s).2 = none) :
    (w.WriteString s).1.written = w.written ++ s := by
  rcases w with ⟨wr, faults⟩
  cases faults with
  | nil => rfl
  | cons f rest =>
    cases f with
    | none => rfl
    | some err => simp [Sink.WriteString] at h

/-- C6 (end-of-input detection): the input has exactly one line, which is in
the lookahead; `at_last_line` is false and the line source is exhausted (and the
sink accepts whatever is staged for appending).  The first advance succeeds,
loads the line into the pattern space, counts it and sets `at_last_line`; the
second advance returns `io.EOF`, makes no call to the line source and leaves
the whole engine, so pattern space, hold space, lookahead, `line_number`,
`at_last_line` and instruction pointer, as the first advance left it. -/
theorem end_of_input_detection (e : engine)
    (hlast : e.lastl = false) (hsrc : e.input.pending = [])
    (hflush : ∀ text, e.appl = some text → (e.output.WriteString text).2 = none) :
    (cmd_fillnext e).2 = none ∧
      (cmd_fillnext e).1.pat = e.nxtl ∧
      (cmd_fillnext e).1.lastl = true ∧
      (cmd_fillnext e).1.lineno = e.lineno + 1 ∧
      (cmd_fillnext (cmd_fillnext e).1).2 = some GoError.EOF ∧
      (cmd_fillnext (cmd_fillnext e).1).1.input.calls = (cmd_fillnext e).1.input.calls ∧
      (cmd_fillnext (cmd_fillnext e).1).1 = (cmd_fillnext e).1 := by
  have hshape : ∃ o, cmd_fillnext e =
      ({ e with output := o, appl := none, ip := e.ip + 1, pat := e.nxtl,
                lineno := e.lineno + 1,
                input := { pending := [], calls := e.input.calls + 1 },
                nxtl := "", lastl := true }, none) := by
    cases happl : e.appl with
    | none => exact ⟨e.output, by rw [fillnext_exhausted e happl hlast hsrc]; simp [happl]⟩
    | some text =>
      refine ⟨(e.output.WriteString text).1, ?_⟩
      rw [fillnext_flush e text happl (hflush text happl)]
      exact fillnext_exhausted
        { e with output := (e.output.WriteString text).1, appl := none } rfl hlast hsrc
  obtain ⟨o, ho⟩ := hshape
  rw [ho]
  simp only [true_and]
  rw [fillnext_at_end _ rfl rfl]
  simp

/-- C6 on the one-line input `only`, with a note staged for appending. -/
theorem end_of_input_detection_witness :
    ({ engineAt 0 with nxtl := "only", appl := some "note" }.lastl = false ∧
      { engineAt 0 with nxtl := "only", appl := some "note" }.input.pending = [] ∧
      ∀ text, { engineAt 0 with nxtl := "only", appl := some "note" }.appl = some text →
        ({ engineAt 0 with nxtl := "only", appl := some "note" }.output.WriteString text).2
          = none) ∧
    ((cmd_fillnext { engineAt 0 with nxtl := "only", appl := some "note" }).2 = none ∧
      (cmd_fillnext { engineAt 0 with nxtl := "only", appl := some "note" }).1.pat = "only" ∧
      (cmd_fillnext { engineAt 0 with nxtl := "only", appl := some "note" }).1.lastl = true ∧
      (cmd_fillnext { engineAt 0 with nxtl := "only", appl := some "note" }).1.lineno = 0 + 1 ∧
      (cmd_fillnext
        (cmd_fillnext { engineAt 0 with nxtl := "only", appl := some "note" }).1).2
        = some GoError.EOF ∧
      (cmd_fillnext
        (cmd_fillnext { engineAt 0 with nxtl := "only", appl := some "note" }).1).1.input.calls
        = (cmd_fillnext { engineAt 0 with nxtl := "only", appl := some "note" }).1.input.calls ∧
      (cmd_fillnext
        (cmd_fillnext { engineAt 0 with nxtl := "only", appl := some "note" }).1).1
        = (cmd_fillnext { engineAt 0 with nxtl := "only", appl := some "note" }).1) :=
  ⟨⟨rfl, rfl, fun _ _ => rfl⟩,
    end_of_input_detection { engineAt 0 with nxtl := "only", appl := some "note" }
      rfl rfl (fun _ _ => rfl)⟩

/-! ## Append queue, block replace, swap -/

/-- C7 (append ordering): starting with an empty append queue, staging `X` and
then `Y` returns no error twice, writes nothing and leaves the queue holding
`X ++ Y`.  If the sink accepts the write, the next advance is the flush of
`X ++ Y` followed by an advance with an empty queue, so the text is written
before the lookahead becomes the pattern space: after it the output is the old
output followed by exactly `X ++ Y`, the queue is empty, and (when the end of
input was not reached before) the pattern space is the old lookahead.  A
further advance writes nothing.  If the sink refuses the write, the advance
returns that error and does not load the lookahead. -/
theorem append_ordering (e : engine) (X Y : String) (h : e.appl = none) :
    (cmd_newAppender X e).2 = none ∧
      (cmd_newAppender Y (cmd_newAppender X e).1).2 = none ∧
      (cmd_newAppender Y (cmd_newAppender X e).1).1
        = { e with appl := some (X ++ Y), ip := e.ip + 1 + 1 } ∧
      ((e.output.WriteString (X ++ Y)).2 = none →
        cmd_fillnext (cmd_newAppender Y (cmd_newAppender X e).1).1
            = cmd_fillnext { e with output := (e.output.WriteString (X ++ Y)).1,
                                    ip := e.ip + 1 + 1 } ∧
          (cmd_fillnext (cmd_newAppender Y (cmd_newAppender X e).1).1).1.output.written
            = e.output.written ++ (X ++ Y) ∧
          (cmd_fillnext (cmd_newAppender Y (cmd_newAppender X e).1).1).1.appl = none ∧
          (e.lastl = false →
            (cmd_fillnext (cmd_newAppender Y (cmd_newAppender X e).1).1).1.pat = e.nxtl) ∧
          (cmd_fillnext
              (cmd_fillnext (cmd_newAppender Y (cmd_newAppender X e).1).1).1).1.output
            = (cmd_fillnext (cmd_newAppender Y (cmd_newAppender X e).1).1).1.output) ∧
      (∀ err, (e.output.WriteString (X ++ Y)).2 = some err →
        (cmd_fillnext (cmd_newAppender Y (cmd_newAppender X e).1).1).2 = some err ∧
          (cmd_fillnext (cmd_newAppender Y (cmd_newAppender X e).1).1).1.pat = e.pat) := by
  have hq : (cmd_newAppender Y (cmd_newAppender X e).1).1
      = { e with appl := some (X ++ Y), ip := e.ip + 1 + 1 } := by
    simp [cmd_newAppender, h]
  refine ⟨by simp [cmd_newAppender, h], by simp [cmd_newAppender, h], hq, ?_, ?_⟩
  · intro hw
    have hnone :
        ({ e with
            output := (e.output.WriteString (X ++ Y)).1, ip := e.ip + 1 + 1 } : engine).appl
          = none := h
    have hflush : cmd_fillnext { e with appl := some (X ++ Y), ip := e.ip + 1 + 1 }
        = cmd_fillnext { e with output := (e.output.WriteString (X ++ Y)).1,
                                ip := e.ip + 1 + 1 } := by
      simp only [cmd_fillnext, hw, h]
    rw [hq, hflush]
    refine ⟨rfl, ?_, fillnext_appl _, ?_, ?_⟩
    · rw [fillnext_output _ hnone]
      exact WriteString_accepted _ _ hw
    · intro hl
      simp only [cmd_fillnext, h, hl, Bool.false_eq_true, if_false]
      split_ifs <;> rfl
    · exact fillnext_output _ (fillnext_appl _)
  · intro err hw
    rw [hq, fillnext_flush_refused { e with appl := some (X ++ Y), ip := e.ip + 1 + 1 }
      (X ++ Y) err rfl hw]
    exact ⟨rfl, rfl⟩

/-- C7 on the notes `note1` and `note2`, staged while line `x` is processed and
line `y` is in the lookahead. -/
theorem append_ordering_witness :
    { engineAt 1 with pat := "x", nxtl := "y" }.appl = none ∧
      (cmd_fillnext (cmd_newAppender "note2"
          (cmd_newAppender "note1" { engineAt 1 with pat := "x", nxtl := "y" }).1).1).1.output.written
        = "" ++ ("note1" ++ "note2") :=
  ⟨rfl,
    ((append_ordering { engineAt 1 with pat := "x", nxtl := "y" } "note1" "note2" rfl).2.2.2.1
      rfl).2.1⟩

/-- C8 (block replace): whatever the guard reports, `cmd_change.run` sets the
instruction pointer to 0 and leaves pattern space, hold space, lookahead,
`line_number`, `at_last_line`, the append queue and the line source as they
were.  If there is no guard, or the guard's `isLastLine` is true at the current
`line_number`, it makes exactly one write of the replacement text and returns
the outcome of that write; the text is appended to the output when the sink
accepts it.  Otherwise it writes nothing and returns no error.  Run as an
instruction of a program it leaves every activator, its guard included,
unchanged. -/
theorem block_replace (guard : Option cmd_twocond) (text : String) (e : engine) :
    (cmd_change.run guard text e).1.ip = 0 ∧
      (cmd_change.run guard text e).1.pat = e.pat ∧
      (cmd_change.run guard text e).1.hold = e.hold ∧
      (cmd_change.run guard text e).1.nxtl = e.nxtl ∧
      (cmd_change.run guard text e).1.lineno = e.lineno ∧
      (cmd_change.run guard text e).1.lastl = e.lastl ∧
      (cmd_change.run guard text e).1.appl = e.appl ∧
      (cmd_change.run guard text e).1.input = e.input ∧
      ((guard = none ∨ ∃ g, guard = some g ∧ g.isLastLine e = true) →
        (cmd_change.run guard text e).1.output = (e.output.WriteString text).1 ∧
          (cmd_change.run guard text e).2 = (e.output.WriteString text).2 ∧
          ((e.output.WriteString text).2 = none →
            (cmd_change.run guard text e).1.output.written = e.output.written ++ text)) ∧
      (¬ (guard = none ∨ ∃ g, guard = some g ∧ g.isLastLine e = true) →
        (cmd_change.run guard text e).1.output = e.output ∧
          (cmd_change.run guard text e).2 = none) ∧
      (∀ (m : Machine) (ref : Option Nat) (r : Machine × Option GoError),
        (instruction.change ref text).exec m = some r → r.1.store = m.store) := by
  have hfire : ∀ g : cmd_twocond,
      g.isLastLine { e with ip := 0 } = g.isLastLine e := fun _ => rfl
  have hshape : ∃ o err, cmd_change.run guard text e = ({ e with ip := 0, output := o }, err) := by
    cases guard with
    | none => exact ⟨_, _, rfl⟩
    | some g =>
      simp only [cmd_change.run, hfire]
      cases g.isLastLine e
      · exact ⟨e.output, none, by simp⟩
      · exact ⟨_, _, rfl⟩
  have hframe : (cmd_change.run guard text e).1.ip = 0 ∧
      (cmd_change.run guard text e).1.pat = e.pat ∧
      (cmd_change.run guard text e).1.hold = e.hold ∧
      (cmd_change.run guard text e).1.nxtl = e.nxtl ∧
      (cmd_change.run guard text e).1.lineno = e.lineno ∧
      (cmd_change.run guard text e).1.lastl = e.lastl ∧
      (cmd_change.run guard text e).1.appl = e.appl ∧
      (cmd_change.run guard text e).1.input = e.input := by
    obtain ⟨o, err, h⟩ := hshape
    rw [h]
    exact ⟨rfl, rfl, rfl, rfl, rfl, rfl, rfl, rfl⟩
  obtain ⟨f1, f2, f3, f4, f5, f6, f7, f8⟩ := hframe
  refine ⟨f1, f2, f3, f4, f5, f6, f7, f8, ?_, ?_, ?_⟩
  · intro hcase
    cases guard with
    | none =>
      simp only [cmd_change.run, if_true]
      exact ⟨trivial, trivial, WriteString_accepted _ _⟩
    | some g =>
      have hg : g.isLastLine e = true := by
        rcases hcase with h | ⟨g2, h, h2⟩
        · cases h
        · cases h; exact h2
      simp only [cmd_change.run, hfire, hg, if_true]
      exact ⟨trivial, trivial, WriteString_accepted _ _⟩
  · intro hcase
    cases guard with
    | none => exact absurd (Or.inl rfl) hcase
    | some g =>
      have hg : g.isLastLine e = false := by
        cases hv : g.isLastLine e with
        | false => rfl
        | true => exact absurd (Or.inr ⟨g, rfl, hv⟩) hcase
      simp only [cmd_change.run, hfire, hg, Bool.false_eq_true, if_false]
      exact ⟨trivial, trivial⟩
  · intro m ref r hr
    cases ref with
    | none =>
      simp only [instruction.exec, Option.some.injEq] at hr
      subst hr; rfl
    | some i =>
      simp only [instruction.exec] at hr
      cases hs : m.store[i]? with
      | none => simp [hs] at hr
      | some g =>
        simp only [hs, Option.some.injEq] at hr
        subst hr; rfl

/-- C9 (swap involution): one swap exchanges pattern space and hold space; two
swaps in a row return no error and give back the engine as it was, except for
the instruction pointer, which has advanced by two. -/
theorem swap_involution (e : engine) :
    (cmd_swap e).1.pat = e.hold ∧ (cmd_swap e).1.hold = e.pat ∧
      (cmd_swap e).2 = none ∧ (cmd_swap (cmd_swap e).1).2 = none ∧
      (cmd_swap (cmd_swap e).1).1 = { e with ip := e.ip + 2 } := by
  refine ⟨rfl, rfl, rfl, rfl, ?_⟩
  simp only [cmd_swap]
  have : e.ip + 1 + 1 = e.ip + 2 := by omega
  rw [this]

/-- Advance past the end-of-input check never returns `io.EOF`: the `io.EOF`
of the line source is turned into success. -/
theorem fillnext_reading_not_eof (e : engine) (happl : e.appl = none)
    (hlast : e.lastl = false) : (cmd_fillnext e).2 ≠ some GoError.EOF := by
  simp only [cmd_fillnext, happl, hlast, Bool.false_eq_true, if_false]
  split_ifs with h1 h2
  · simp
  · simp
  · exact h1

/-- C10 (`io.EOF` only once the queue is flushed): whenever `cmd_fillnext`
returns `io.EOF` after a flush that the sink accepted (so the signal is the one
of the end-of-input check, not an error of the write), `at_last_line` was set,
the append queue is empty in the resulting state, the text that was queued on
entry has been appended in full to the output, and nothing else in the engine
has changed. -/
theorem eof_after_flush (e : engine)
    (hflush : ∀ text, e.appl = some text → (e.output.WriteString text).2 = none)
    (heof : (cmd_fillnext e).2 = some GoError.EOF) :
    e.lastl = true ∧
      (cmd_fillnext e).1.appl = none ∧
      (cmd_fillnext e).1.output.written = e.output.written ++ e.appl.getD "" ∧
      (cmd_fillnext e).1
        = { e with appl := none, output := (cmd_fillnext e).1.output } := by
  cases happl : e.appl with
  | none =>
    have hl : e.lastl = true := by
      cases hv : e.lastl with
      | true => rfl
      | false => exact absurd heof (fillnext_reading_not_eof e happl hv)
    rw [fillnext_at_end e happl hl]
    refine ⟨hl, happl, ?_, ?_⟩
    · simp
    · simp [← happl]
  | some text =>
    have hw := hflush text happl
    have hstep := fillnext_flush e text happl hw
    have hl : e.lastl = true := by
      cases hv : e.lastl with
      | true => rfl
      | false =>
        rw [hstep] at heof
        exact absurd heof (fillnext_reading_not_eof _ rfl hv)
    have hend := fillnext_at_end
      { e with output := (e.output.WriteString text).1, appl := none } rfl hl
    rw [hstep, hend]
    refine ⟨hl, rfl, ?_, rfl⟩
    simpa using WriteString_accepted _ _ hw

/-- C10 on an engine at the end of its input with `tail` still queued. -/
theorem eof_after_flush_witness :
    ((∀ text, { engineAt 3 with lastl := true, appl := some "tail" }.appl = some text →
        ({ engineAt 3 with lastl := true, appl := some "tail" }.output.WriteString text).2
          = none) ∧
      (cmd_fillnext { engineAt 3 with lastl := true, appl := some "tail" }).2
        = some GoError.EOF) ∧
    ({ engineAt 3 with lastl := true, appl := some "tail" }.lastl = true ∧
      (cmd_fillnext { engineAt 3 with lastl := true, appl := some "tail" }).1.appl = none ∧
      (cmd_fillnext { engineAt 3 with lastl := true, appl := some "tail" }).1.output.written
        = { engineAt 3 with lastl := true, appl := some "tail" }.output.written
          ++ { engineAt 3 with lastl := true, appl := some "tail" }.appl.getD "" ∧
      (cmd_fillnext { engineAt 3 with lastl := true, appl := some "tail" }).1
        = { { engineAt 3 with lastl := true, appl := some "tail" } with
            appl := none,
            output :=
              (cmd_fillnext { engineAt 3 with lastl := true, appl := some "tail" }).1.output }) :=
  ⟨⟨fun _ _ => rfl, rfl⟩,
    eof_after_flush { engineAt 3 with lastl := true, appl := some "tail" } (fun _ _ => rfl) rfl⟩

/-! ## The range and block-replace scenario -/

theorem runLoop_step (prog : List instruction) (m m1 : Machine) (i : instruction) (n : Nat)
    (hip : m.eng.ip = (n : Int)) (hi : prog[n]? = some i)
    (hx : i.exec m = some (m1, none)) (fuel : Nat) :
    runLoop prog (fuel + 1) m = runLoop prog fuel m1 := by
  have h0 : ¬ (m.eng.ip < 0) := by omega
  simp [runLoop, h0, hip, hi, hx]

theorem runLoop_stop (prog : List instruction) (m m1 : Machine) (i : instruction) (n : Nat)
    (err : GoError) (hip : m.eng.ip = (n : Int)) (hi : prog[n]? = some i)
    (hx : i.exec m = some (m1, some err)) (fuel : Nat) :
    runLoop prog (fuel + 1) m = RunResult.stopped m1 err := by
  have h0 : ¬ (m.eng.ip < 0) := by omega
  simp [runLoop, h0, hip, hi, hx]

theorem lineIs_at (n k : Nat) (e : engine) (h : e.lineno = (k : Int) + 1) :
    lineIs n e = decide (k + 1 = n) := by
  simp only [lineIs, h]
  by_cases hk : k + 1 = n
  · subst hk; simp
  · have : ¬ ((k : Int) + 1 = (n : Int)) := by omega
    simp [hk, this]

theorem print_accepting (e : engine) (h : e.output.faults = []) :
    cmd_print e =
      ({ e with ip := e.ip + 1,
                output := { written := e.output.written ++ e.pat ++ "\n", faults := [] } },
        none) := by
  rcases e with ⟨inp, ⟨wr, faults⟩, pat, hold, nxtl, appl, lastl, ip, lineno⟩
  simp only at h
  subst h
  rfl

theorem change_accepting (g : cmd_twocond) (text : String) (e : engine)
    (h : e.output.faults = []) :
    cmd_change.run (some g) text e =
      ({ e with ip := 0,
                output := { written := e.output.written ++ (if g.isLastLine e then text else ""),
                            faults := [] } },
        none) := by
  rcases e with ⟨inp, ⟨wr, faults⟩, pat, hold, nxtl, appl, lastl, ip, lineno⟩
  simp only at h
  subst h
  have hfire : g.isLastLine
      { input := inp, output := { written := wr, faults := [] }, pat := pat, hold := hold,
        nxtl := nxtl, appl := appl, lastl := lastl, ip := 0, lineno := lineno }
      = g.isLastLine
      { input := inp, output := { written := wr, faults := [] }, pat := pat, hold := hold,
        nxtl := nxtl, appl := appl, lastl := lastl, ip := ip, lineno := lineno } := rfl
  simp only [cmd_change.run, hfire]
  cases g.isLastLine _
  · simp
  · simp [Sink.WriteString]

/-- One cycle of the scenario: from the start of the cycle for line `k + 1`
the run reaches, in three or four steps, the start of the next cycle, and has
written what the scenario writes for that line. -/
theorem scenario_cycle (s t : Nat) (text : String) (hs : 1 ≤ s) (hst : s < t)
    (k : Nat) (l : InputLine) (more : List InputLine) (m : Machine)
    (h : ScenarioAt s t k (l :: more) m) :
    ∃ n m1, n ≤ 4 ∧
      (∀ fuel, runLoop (scenarioProgram text) (fuel + n) m
        = runLoop (scenarioProgram text) fuel m1) ∧
      ScenarioAt s t (k + 1) more m1 ∧
      m1.eng.output.written = m.eng.output.written ++ scenarioPiece s t text (k + 1) l := by
  rcases m with ⟨e, store⟩
  obtain ⟨hip, hline, hsink, hready, c, hstore, hstart, hend, hmet, hunmet, hon, hoff⟩ := h
  simp only at hip hline hsink hready hstore
  subst hstore
  obtain ⟨e1, hfill, hpat, hline1, hready1, hout1, hip1, _⟩ := fillnext_ready l more e hready
  have hl1 : e1.lineno = (k : Int) + 1 := by rw [hline1, hline]
  have step1 : ∀ fuel, runLoop (scenarioProgram text) (fuel + 1) ⟨e, [c]⟩
      = runLoop (scenarioProgram text) fuel ⟨e1, [c]⟩ := fun fuel =>
    runLoop_step _ _ _ instruction.fillnext 0 (by simpa using hip) rfl
      (by simp [instruction.exec, hfill]) fuel
  have hrun := twocond_phase_step c e1 s t k hs hst hon hoff hl1
    (by rw [hstart]; exact lineIs_at s k e1 hl1) (by rw [hend]; exact lineIs_at t k e1 hl1)
  have step2 : ∀ fuel, runLoop (scenarioProgram text) (fuel + 1) ⟨e1, [c]⟩
      = runLoop (scenarioProgram text) fuel
          ⟨(c.run e1).2.1, [(c.run e1).1]⟩ := fun fuel =>
    runLoop_step _ _ _ (instruction.twocond 0) 1 (by rw [hip1, hip]; rfl) rfl
      (by
        have hnone : (c.run e1).2.2 = none := by rw [hrun]
        simp [instruction.exec, hnone]) fuel
  by_cases hin : s ≤ k + 1 ∧ k + 1 ≤ t
  · -- inside the range: block replace
    have hlast : (c.run e1).1.isLastLine (c.run e1).2.1 = decide (k + 1 = t) := by
      rw [hrun]
      simp only [cmd_twocond.isLastLine, hin, and_self, decide_True, Bool.true_and, hl1]
      by_cases hk : k + 1 = t
      · subst hk; simp
      · simp only [hk, if_false, decide_False, beq_eq_false_iff_ne, ne_eq]
        omega
    have hfaults : (c.run e1).2.1.output.faults = [] := by
      rw [hrun]; simp only; rw [hout1]; exact hsink
    have hchange := change_accepting (c.run e1).1 text (c.run e1).2.1 hfaults
    have step3 : ∀ fuel, runLoop (scenarioProgram text) (fuel + 1)
        ⟨(c.run e1).2.1, [(c.run e1).1]⟩
        = runLoop (scenarioProgram text) fuel
            ⟨(cmd_change.run (some (c.run e1).1) text (c.run e1).2.1).1, [(c.run e1).1]⟩ :=
      fun fuel =>
      runLoop_step _ _ _ (instruction.change (some 0) text) 2
        (by rw [hrun]; simp [hin, hmet]) rfl
        (by
          have hnone : (cmd_change.run (some (c.run e1).1) text (c.run e1).2.1).2 = none := by
            rw [hchange]
          simp [instruction.exec, hnone]) fuel
    refine ⟨3, Machine.mk (cmd_change.run (some (c.run e1).1) text (c.run e1).2.1).1
      [(c.run e1).1], by omega, ?_, ?_, ?_⟩
    · intro fuel
      have e3 : fuel + 3 = fuel + 1 + 1 + 1 := by omega
      rw [e3, step1, step2, step3]
    · rw [hchange, hlast]
      refine ⟨rfl, ?_, rfl, ?_, (c.run e1).1, rfl, ?_⟩
      · simp only
        rw [hrun]
        simp only
        rw [hl1]
        push_cast
        rfl
      · rw [hrun]
        exact hready1
      · rw [hrun]
        exact ⟨hstart, hend, hmet, hunmet, rfl, rfl⟩
    · rw [hchange, hlast]
      simp only
      rw [hrun]
      simp only [hout1, scenarioPiece, hin, and_self, if_true]
      by_cases hk : k + 1 = t <;> simp [hk]
  · -- outside the range: print, then branch to 0
    have hfaults : (c.run e1).2.1.output.faults = [] := by
      rw [hrun]; simp only; rw [hout1]; exact hsink
    have hprint := print_accepting (c.run e1).2.1 hfaults
    have step3 : ∀ fuel, runLoop (scenarioProgram text) (fuel + 1)
        ⟨(c.run e1).2.1, [(c.run e1).1]⟩
        = runLoop (scenarioProgram text) fuel
            ⟨(cmd_print (c.run e1).2.1).1, [(c.run e1).1]⟩ :=
      fun fuel =>
      runLoop_step _ _ _ instruction.print 3
        (by rw [hrun]; simp [hin, hunmet]) rfl
        (by
          have hnone : (cmd_print (c.run e1).2.1).2 = none := by rw [hprint]
          simp [instruction.exec, hnone]) fuel
    have step4 : ∀ fuel, runLoop (scenarioProgram text) (fuel + 1)
        ⟨(cmd_print (c.run e1).2.1).1, [(c.run e1).1]⟩
        = runLoop (scenarioProgram text) fuel
            ⟨(cmd_newBranch 0 (cmd_print (c.run e1).2.1).1).1, [(c.run e1).1]⟩ :=
      fun fuel =>
      runLoop_step _ _ _ (instruction.branch 0) 4
        (by rw [hprint, hrun]; simp [hin, hunmet]) rfl
        (by simp [instruction.exec, cmd_newBranch]) fuel
    refine ⟨4, Machine.mk (cmd_newBranch 0 (cmd_print (c.run e1).2.1).1).1
      [(c.run e1).1], by omega, ?_, ?_, ?_⟩
    · intro fuel
      have e4 : fuel + 4 = fuel + 1 + 1 + 1 + 1 := by omega
      rw [e4, step1, step2, step3, step4]
    · rw [hprint]
      refine ⟨rfl, ?_, rfl, ?_, (c.run e1).1, rfl, ?_⟩
      · simp only [cmd_newBranch]
        rw [hrun]
        simp only
        rw [hl1]
        push_cast
        rfl
      · rw [hrun]
        exact hready1
      · rw [hrun]
        exact ⟨hstart, hend, hmet, hunmet, rfl, rfl⟩
    · rw [hprint]
      simp only [cmd_newBranch]
      rw [hrun]
      simp only [hout1, hpat, scenarioPiece, hin, if_false, String.append_assoc]

/-- The end of the scenario: with no line left the advance instruction returns
`io.EOF` and the run stops there. -/
theorem scenario_end (s t : Nat) (text : String) (k : Nat) (m : Machine)
    (h : ScenarioAt s t k [] m) :
    ∀ fuel, runLoop (scenarioProgram text) (fuel + 1) m = RunResult.stopped m GoError.EOF := by
  rcases m with ⟨e, store⟩
  obtain ⟨hip, _, _, ⟨happl, _, hlast⟩, _⟩ := h
  intro fuel
  exact runLoop_stop _ _ _ instruction.fillnext 0 GoError.EOF (by simpa using hip) rfl
    (by simp [instruction.exec, fillnext_at_end e happl hlast]) fuel

/-- The whole run of the scenario from the start of any cycle: it stops with
`io.EOF` after at most four steps per line and one more, and has written what
the scenario writes for the lines that were left. -/
theorem scenario_run (s t : Nat) (text : String) (hs : 1 ≤ s) (hst : s < t) :
    ∀ (ls : List InputLine) (k : Nat) (m : Machine), ScenarioAt s t k ls m →
      ∃ n m1, n ≤ 4 * ls.length + 1 ∧
        (∀ fuel, runLoop (scenarioProgram text) (fuel + n) m
          = RunResult.stopped m1 GoError.EOF) ∧
        m1.eng.output.written = m.eng.output.written ++ scenarioOut s t text k ls := by
  intro ls
  induction ls with
  | nil =>
    intro k m h
    exact ⟨1, m, by simp, scenario_end s t text k m h, by simp [scenarioOut]⟩
  | cons l more ih =>
    intro k m h
    obtain ⟨n1, m1, hn1, hsteps, hnext, hout⟩ := scenario_cycle s t text hs hst k l more m h
    obtain ⟨n2, m2, hn2, hstop, hout2⟩ := ih (k + 1) m1 hnext
    refine ⟨n2 + n1, m2, by simp only [List.length_cons]; omega, ?_, ?_⟩
    · intro fuel
      rw [← Nat.add_assoc, hsteps (fuel + n2), hstop fuel]
    · rw [hout2, hout, String.append_assoc]
      rfl

theorem printed_nil : printed [] = "" := rfl

theorem printed_cons (l : InputLine) (ls : List InputLine) :
    printed (l :: ls) = l.text ++ "\n" ++ printed ls := by
  simp [printed, joinLines_cons]

/-- After the range every line is printed. -/
theorem scenarioOut_after (s t : Nat) (text : String) :
    ∀ (ls : List InputLine) (k : Nat), t ≤ k → scenarioOut s t text k ls = printed ls := by
  intro ls
  induction ls with
  | nil => intro k _; rfl
  | cons l more ih =>
    intro k hk
    have hout : ¬ (s ≤ k + 1 ∧ k + 1 ≤ t) := by omega
    simp only [scenarioOut, scenarioPiece, hout, if_false, printed_cons]
    rw [ih (k + 1) (by omega)]

/-- What the scenario writes, from before the end of the range on: the lines
before the range, the replacement text, the lines after the range. -/
theorem scenarioOut_eq (s t : Nat) (text : String) (hst : s ≤ t) :
    ∀ (ls : List InputLine) (k : Nat), k < t → t ≤ k + ls.length →
      scenarioOut s t text k ls
        = printed (ls.take (s - 1 - k)) ++ text ++ printed (ls.drop (t - k)) := by
  intro ls
  induction ls with
  | nil => intro k h1 h2; simp at h2; omega
  | cons l more ih =>
    intro k h1 h2
    simp only [List.length_cons] at h2
    have hdrop : t - k = (t - (k + 1)) + 1 := by omega
    rw [hdrop, List.drop_succ_cons]
    have key : k + 1 < s ∨ (s ≤ k + 1 ∧ k + 1 < t) ∨ k + 1 = t := by omega
    rcases key with h | h | h
    · have hout : ¬ (s ≤ k + 1 ∧ k + 1 ≤ t) := by omega
      have htake : s - 1 - k = (s - 1 - (k + 1)) + 1 := by omega
      rw [htake, List.take_succ_cons]
      simp only [scenarioOut, scenarioPiece, hout, if_false, printed_cons]
      rw [ih (k + 1) (by omega) (by omega)]
      simp only [String.append_assoc]
    · have hin : s ≤ k + 1 ∧ k + 1 ≤ t := by omega
      have hne : ¬ (k + 1 = t) := by omega
      have htake : s - 1 - k = 0 := by omega
      have htake2 : s - 1 - (k + 1) = 0 := by omega
      simp only [scenarioOut, scenarioPiece, hin, and_self, if_true, hne, if_false]
      rw [ih (k + 1) (by omega) (by omega), htake, htake2]
      simp
    · subst h
      have hin : s ≤ k + 1 ∧ k + 1 ≤ k + 1 := by omega
      have htake : s - 1 - k = 0 := by omega
      have hzero : k + 1 - (k + 1) = 0 := by omega
      simp only [scenarioOut, scenarioPiece, hin, and_self, if_true]
      rw [scenarioOut_after s (k + 1) text more (k + 1) (by omega), htake, hzero]
      simp [printed_nil]

/-- C1 (range and block-replace scenario): the program is advance; range
branch with start "line `s`" and end "line `t`", met target the block replace
guarded by that same activator, unmet target print followed by branch to 0.
It is run on an engine primed for the `N` lines `ls`, with the instruction
pointer at 0 and a sink that accepts every write.  For `1 ≤ s < t ≤ N` the run
stops with `io.EOF`, within `4 * N + 1` steps, and has then appended to the
output the lines `1..s-1`, each followed by a newline, then the replacement
text once, then the lines `t+1..N`, each followed by a newline. -/
theorem scenario_output (ls : List InputLine) (s t : Nat) (text : String) (e : engine)
    (hs : 1 ≤ s) (hst : s < t) (ht : t ≤ ls.length)
    (hprimed : Primed ls e) (hip : e.ip = 0) (hsink : e.output.faults = [])
    (fuel : Nat) (hfuel : 4 * ls.length + 1 ≤ fuel) :
    ∃ m1, runLoop (scenarioProgram text) fuel (Machine.mk e [scenarioActivator s t])
        = RunResult.stopped m1 GoError.EOF ∧
      m1.eng.output.written
        = e.output.written ++ (printed (ls.take (s - 1)) ++ text ++ printed (ls.drop t)) := by
  have hstart : ScenarioAt s t 0 ls (Machine.mk e [scenarioActivator s t]) := by
    have h2 : ¬ (0 = t) := by omega
    refine ⟨hip, by simpa using hprimed.1, hsink, hprimed.2, scenarioActivator s t, rfl, rfl,
      rfl, rfl, rfl, ?_, ?_⟩
    · have h3 : ¬ (s = 0) := by omega
      simp [scenarioActivator, newTwoCond, h3]
    · simp [scenarioActivator, newTwoCond, h2]
  obtain ⟨n, m1, hn, hstop, hout⟩ := scenario_run s t text hs hst ls 0 _ hstart
  refine ⟨m1, ?_, ?_⟩
  · have hsplit : fuel = (fuel - n) + n := by omega
    rw [hsplit]
    exact hstop (fuel - n)
  · rw [hout, scenarioOut_eq s t text (by omega) ls 0 (by omega) (by omega)]
    simp

/-- The witness named in C1: the lines `a`, `b`, `c`, `d` with `s = 2` and
`t = 3` give `a`, then `REPLACED` once, then `d`. -/
theorem scenario_output_witness :
    ∃ m1, runLoop (scenarioProgram "REPLACED\n") 17
        (Machine.mk
          { engineAt 0 with
            ip := 0, nxtl := "a"
            input := { pending := sourceOf [⟨[], "b"⟩, ⟨[], "c"⟩, ⟨[], "d"⟩], calls := 0 } }
          [scenarioActivator 2 3])
        = RunResult.stopped m1 GoError.EOF ∧
      m1.eng.output.written = "a\nREPLACED\nd\n" :=
  scenario_output [⟨[], "a"⟩, ⟨[], "b"⟩, ⟨[], "c"⟩, ⟨[], "d"⟩] 2 3 "REPLACED\n"
    { engineAt 0 with
      ip := 0, nxtl := "a"
      input := { pending := sourceOf [⟨[], "b"⟩, ⟨[], "c"⟩, ⟨[], "d"⟩], calls := 0 } }
    (by decide) (by decide) (by decide) ⟨rfl, rfl, rfl, rfl, rfl⟩ rfl rfl 17 (by decide)

/-! ## Append instructions and the start condition -/

/-- The call `strings.Join(lines, "")` of the advance instruction, seen through
the library function. -/
theorem stringsJoin_empty_sep (lines : List String) : stringsJoin lines "" = joinLines lines := by
  induction lines with
  | nil => rfl
  | cons a rest ih =>
    cases rest with
    | nil => simp [stringsJoin, joinLines]
    | cons b more =>
      rw [joinLines_cons, ← ih]
      simp [stringsJoin, String.append_assoc]

/-- C18 (append instructions): for every engine state `cmd_getapp` sets the
pattern space to the old pattern space, a newline and the hold space and leaves
the hold space as it was; `cmd_holdapp` sets the hold space to the old hold
space, a newline and the pattern space and leaves the pattern space as it was.
Each returns no error, advances the instruction pointer by exactly one and
changes nothing else, so writes no output and reads no input.  The newline is
there also when a buffer is empty. -/
theorem append_instructions (e : engine) :
    cmd_getapp e = ({ e with pat := e.pat ++ "\n" ++ e.hold, ip := e.ip + 1 }, none) ∧
      cmd_holdapp e = ({ e with hold := e.hold ++ "\n" ++ e.pat, ip := e.ip + 1 }, none) ∧
      (cmd_getapp e).1.hold = e.hold ∧ (cmd_holdapp e).1.pat = e.pat ∧
      (cmd_getapp e).1.output = e.output ∧ (cmd_holdapp e).1.output = e.output ∧
      (cmd_getapp e).1.input = e.input ∧ (cmd_holdapp e).1.input = e.input ∧
      (e.pat = "" → e.hold = "" → (cmd_getapp e).1.pat = "\n" ∧ (cmd_holdapp e).1.hold = "\n") := by
  refine ⟨?_, ?_, rfl, rfl, rfl, rfl, rfl, rfl, ?_⟩
  · simp [cmd_getapp, stringsJoin]
  · simp [cmd_holdapp, stringsJoin]
  · intro h1 h2
    simp [cmd_getapp, cmd_holdapp, stringsJoin, h1, h2]

/-- C17 (the start condition is not evaluated again while active): take an
activator that is on and has no deactivation due at the current line
(`offFrom = 0` or `offFrom ≥ line_number`).  Whatever its start condition is,
`cmd_twocond.run` goes to the met target, keeps the activator on, records the
current line as the deactivation line if the end condition is met and leaves
it as it was otherwise; so the instruction pointer, `isOn`, `offFrom`, the
engine and the returned error are the same for any two start conditions. -/
theorem start_not_reevaluated (c : cmd_twocond) (e : engine) (st1 st2 : condition)
    (hon : c.isOn = true) (hoff : c.offFrom = 0 ∨ e.lineno ≤ c.offFrom) :
    cmd_twocond.run { c with start := st1 } e
        = ({ c with start := st1, offFrom := if c.«end» e then e.lineno else c.offFrom },
            { e with ip := c.metloc }, none) ∧
      observe { c with start := st1 } e = observe { c with start := st2 } e ∧
      (cmd_twocond.run { c with start := st1 } e).2
        = (cmd_twocond.run { c with start := st2 } e).2 := by
  have hshape : ∀ st : condition, cmd_twocond.run { c with start := st } e
      = ({ c with start := st, offFrom := if c.«end» e then e.lineno else c.offFrom },
          { e with ip := c.metloc }, none) := by
    intro st
    rcases c with ⟨st0, en, ml, ul, act, off⟩
    simp only at hon hoff
    subst hon
    have hno : ¬ (0 < off ∧ off < e.lineno) := by omega
    simp only [cmd_twocond.run]
    cases hen : en e <;> simp [hno, hen]
  refine ⟨hshape st1, ?_, ?_⟩
  · simp only [observe, hshape, cmd_twocond.isLastLine]
  · simp only [hshape]

/-- C17 on a range that is on at line 3: a start condition that matches line 3
again and one that does not give the same result. -/
theorem start_not_reevaluated_witness :
    ({ newTwoCond (lineIs 2) (lineIs 4) 2 3 with isOn := true }.isOn = true ∧
      ({ newTwoCond (lineIs 2) (lineIs 4) 2 3 with isOn := true }.offFrom = 0 ∨
        (engineAt 3).lineno ≤ { newTwoCond (lineIs 2) (lineIs 4) 2 3 with isOn := true }.offFrom)) ∧
      observe { { newTwoCond (lineIs 2) (lineIs 4) 2 3 with isOn := true } with
                start := lineIs 3 } (engineAt 3)
        = observe { { newTwoCond (lineIs 2) (lineIs 4) 2 3 with isOn := true } with
                    start := lineIs 9 } (engineAt 3) :=
  ⟨⟨rfl, Or.inl rfl⟩,
    (start_not_reevaluated { newTwoCond (lineIs 2) (lineIs 4) 2 3 with isOn := true }
      (engineAt 3) (lineIs 3) (lineIs 9) rfl (Or.inl rfl)).2.1⟩

/-! ## Invariants of the activator -/

/-- The recorded deactivation line stays between 0 and any bound that the old
record and the current line respect. -/
theorem twocond_run_bound (c : cmd_twocond) (e : engine) (n : Int)
    (h0 : 0 ≤ c.offFrom) (hn : c.offFrom ≤ n) (he0 : 0 ≤ e.lineno) (hen : e.lineno ≤ n) :
    0 ≤ (c.run e).1.offFrom ∧ (c.run e).1.offFrom ≤ n := by
  rcases c with ⟨st, en, ml, ul, act, off⟩
  simp only at h0 hn
  have hn0 : 0 ≤ n := le_trans h0 hn
  simp only [cmd_twocond.run]
  split_ifs <;> simp_all

theorem evalAll_bound (es : List engine) (n : Int) :
    ∀ c : cmd_twocond, 0 ≤ c.offFrom → c.offFrom ≤ n →
      (∀ x ∈ es, 0 ≤ x.lineno ∧ x.lineno ≤ n) →
      0 ≤ (evalAll c es).offFrom ∧ (evalAll c es).offFrom ≤ n := by
  induction es with
  | nil => intro c h0 hn _; exact ⟨h0, hn⟩
  | cons e es ih =>
    intro c h0 hn hall
    have he := hall e (by simp)
    have hstep := twocond_run_bound c e n h0 hn he.1 he.2
    exact ih (c.run e).1 hstep.1 hstep.2 (fun x hx => hall x (by simp [hx]))

/-- C19 (activator state invariant): start from the state built by
`newTwoCond` and evaluate the activator on any sequence of engines whose line
numbers are at least 1 and in non-decreasing order, `e` being the last of them.
Afterwards a recorded deactivation line implies that the activator is on, and
the recorded line is not greater than the line number of `e`. -/
theorem activator_invariant (start stop : condition) (metloc unmetloc : Int)
    (es : List engine) (e : engine)
    (hpos : ∀ x ∈ es ++ [e], 1 ≤ x.lineno)
    (hsorted : (es ++ [e]).Pairwise (fun a b => a.lineno ≤ b.lineno)) :
    ((evalAll (newTwoCond start stop metloc unmetloc) (es ++ [e])).offFrom ≠ 0 →
        (evalAll (newTwoCond start stop metloc unmetloc) (es ++ [e])).isOn = true) ∧
      (evalAll (newTwoCond start stop metloc unmetloc) (es ++ [e])).offFrom ≤ e.lineno := by
  refine ⟨evalAll_inv _ _ (by simp [newTwoCond]), ?_⟩
  have hle : ∀ x ∈ es ++ [e], 0 ≤ x.lineno ∧ x.lineno ≤ e.lineno := by
    intro x hx
    have h1 := hpos x hx
    refine ⟨by omega, ?_⟩
    rcases List.mem_append.mp hx with hin | hin
    · exact (List.pairwise_append.mp hsorted).2.2 x hin e (by simp)
    · have : x = e := by simpa using hin
      rw [this]
  have he := hpos e (by simp)
  exact (evalAll_bound (es ++ [e]) e.lineno (newTwoCond start stop metloc unmetloc)
    (by simp [newTwoCond]) (by simp only [newTwoCond]; omega) hle).2

/-- C19 on a range from line 1 to line 2, evaluated on lines 1, 2 and 2 again:
line 2 is recorded and the activator is on. -/
theorem activator_invariant_witness :
    ((∀ x ∈ [engineAt 1, engineAt 2] ++ [engineAt 2], 1 ≤ x.lineno) ∧
      ([engineAt 1, engineAt 2] ++ [engineAt 2]).Pairwise (fun a b => a.lineno ≤ b.lineno)) ∧
    (((evalAll (newTwoCond (lineIs 1) (lineIs 2) 2 3)
          ([engineAt 1, engineAt 2] ++ [engineAt 2])).offFrom ≠ 0 →
        (evalAll (newTwoCond (lineIs 1) (lineIs 2) 2 3)
          ([engineAt 1, engineAt 2] ++ [engineAt 2])).isOn = true) ∧
      (evalAll (newTwoCond (lineIs 1) (lineIs 2) 2 3)
        ([engineAt 1, engineAt 2] ++ [engineAt 2])).offFrom ≤ (engineAt 2).lineno) :=
  ⟨⟨by decide, by decide⟩,
    activator_invariant (lineIs 1) (lineIs 2) 2 3 [engineAt 1, engineAt 2] (engineAt 2)
      (by decide) (by decide)⟩

/-- An activating evaluation, written out: the activator is switched on with
no deactivation line recorded, and the engine goes to the met target. -/
theorem twocond_run_activating (c : cmd_twocond) (e : engine)
    (h : c.offFrom ≠ 0 → c.isOn = true) (hact : activates c e = true) :
    c.run e = ({ c with isOn := true, offFrom := 0 }, { e with ip := c.metloc }, none) := by
  rcases c with ⟨st, en, ml, ul, act, off⟩
  simp only [activates] at hact
  simp only at h
  simp only [cmd_twocond.run]
  cases act <;> split_ifs <;> simp_all

/-- C20 (no replacement on the activation line): take an activator built by
`newTwoCond` and evaluated any number of times, and an evaluation at a line
number of at least 1 that activates it.  That evaluation switches the activator
on, records no deactivation line and goes to the met target; what it leaves
behind is the same for any other end condition `stop2`, so the end condition
plays no part in it, even when it matches the line; `isLastLine` is false right
afterwards; and a block replace guarded by the activator and run next writes
nothing, returns no error and only sets the instruction pointer to 0.  (At
line number 0, `isLastLine` of an activator that is on with no deactivation
line recorded is true.) -/
theorem no_replacement_on_activation (start stop : condition) (metloc unmetloc : Int)
    (before : List engine) (e : engine) (text : String) (stop2 : condition)
    (hline : 1 ≤ e.lineno)
    (hact : activates (evalAll (newTwoCond start stop metloc unmetloc) before) e = true) :
    cmd_twocond.run (evalAll (newTwoCond start stop metloc unmetloc) before) e
        = ({ evalAll (newTwoCond start stop metloc unmetloc) before with
              isOn := true, offFrom := 0 },
            { e with ip := metloc }, none) ∧
      observe { evalAll (newTwoCond start stop metloc unmetloc) before with «end» := stop2 } e
        = observe (evalAll (newTwoCond start stop metloc unmetloc) before) e ∧
      (cmd_twocond.run (evalAll (newTwoCond start stop metloc unmetloc) before) e).1.isLastLine
          (cmd_twocond.run (evalAll (newTwoCond start stop metloc unmetloc) before) e).2.1
        = false ∧
      cmd_change.run
          (some (cmd_twocond.run (evalAll (newTwoCond start stop metloc unmetloc) before) e).1)
          text
          (cmd_twocond.run (evalAll (newTwoCond start stop metloc unmetloc) before) e).2.1
        = ({ e with ip := 0 }, none) ∧
      (∀ (c : cmd_twocond) (x : engine),
        c.isOn = true → c.offFrom = 0 → x.lineno = 0 → c.isLastLine x = true) := by
  have hinv := evalAll_inv before (newTwoCond start stop metloc unmetloc)
    (by simp [newTwoCond])
  have hml : (evalAll (newTwoCond start stop metloc unmetloc) before).metloc = metloc :=
    (evalAll_static before (newTwoCond start stop metloc unmetloc)).2.2.1
  have hrun := twocond_run_activating _ e hinv hact
  have hrun2 := twocond_run_activating
    { evalAll (newTwoCond start stop metloc unmetloc) before with «end» := stop2 } e hinv hact
  have hne : ¬ ((0 : Int) = e.lineno) := by omega
  have hlast : (cmd_twocond.run (evalAll (newTwoCond start stop metloc unmetloc) before)
      e).1.isLastLine
      (cmd_twocond.run (evalAll (newTwoCond start stop metloc unmetloc) before) e).2.1
      = false := by
    rw [hrun]
    simp [cmd_twocond.isLastLine, hne]
  refine ⟨by rw [hrun]; simp [hml], ?_, hlast, ?_, ?_⟩
  · simp only [observe, hrun, hrun2, cmd_twocond.isLastLine]
  · have hsame : ∀ g : cmd_twocond, ∀ x : engine,
        g.isLastLine { x with ip := 0 } = g.isLastLine x := fun _ _ => rfl
    simp only [cmd_change.run, hsame, hlast]
    rw [hrun]
    simp
  · intro c x h1 h2 h3
    simp [cmd_twocond.isLastLine, h1, h2, h3]

/-- C20 on a range whose start and end condition both match line 2, evaluated
on line 1 and then activated on line 2. -/
theorem no_replacement_on_activation_witness :
    (1 ≤ (engineAt 2).lineno ∧
      activates (evalAll (newTwoCond (lineIs 2) (lineIs 2) 2 3) [engineAt 1]) (engineAt 2)
        = true) ∧
    cmd_change.run
        (some (cmd_twocond.run (evalAll (newTwoCond (lineIs 2) (lineIs 2) 2 3) [engineAt 1])
          (engineAt 2)).1)
        "REPLACED\n"
        (cmd_twocond.run (evalAll (newTwoCond (lineIs 2) (lineIs 2) 2 3) [engineAt 1])
          (engineAt 2)).2.1
      = ({ engineAt 2 with ip := 0 }, none) :=
  ⟨⟨by decide, by decide⟩,
    (no_replacement_on_activation (lineIs 2) (lineIs 2) 2 3 [engineAt 1] (engineAt 2)
      "REPLACED\n" (lineIs 7) (by decide) (by decide)).2.2.2.1⟩

/-! ## When the advance instruction fails -/

/-- The read loop on reads that all announce more, followed by an error: the
loop stops at the error. -/
theorem readLoop_fail (err : GoError) (rest : List ReadResult) :
    ∀ (ps : List String) (n : Nat) (acc : List String),
      readLoop (ps.map (fun p => ReadResult.chunk p true) ++ ReadResult.fail err :: rest) n acc
        = (rest, n + ps.length + 1, acc ++ ps, some err) := by
  intro ps
  induction ps with
  | nil => intro n acc; simp [readLoop]
  | cons p ps ih =>
    intro n acc
    have hstep : readLoop (ReadResult.chunk p true ::
        (ps.map (fun p => ReadResult.chunk p true) ++ ReadResult.fail err :: rest)) n acc
        = readLoop (ps.map (fun p => ReadResult.chunk p true) ++ ReadResult.fail err :: rest)
            (n + 1) (acc ++ [p]) := by
      simp [readLoop]
    simp only [List.map_cons, List.cons_append]
    rw [hstep, ih (n + 1) (acc ++ [p])]
    simp only [List.length_cons, List.append_assoc, List.singleton_append, Prod.mk.injEq,
      true_and, and_true]
    omega

/-- The read loop on reads that all announce more, after which the source is
used up: the loop stops with `io.EOF`. -/
theorem readLoop_dry :
    ∀ (ps : List String) (n : Nat) (acc : List String),
      readLoop (ps.map (fun p => ReadResult.chunk p true)) n acc
        = ([], n + ps.length + 1, acc ++ ps, some GoError.EOF) := by
  intro ps
  induction ps with
  | nil => intro n acc; simp [readLoop]
  | cons p ps ih =>
    intro n acc
    have hstep : readLoop (ReadResult.chunk p true ::
        ps.map (fun p => ReadResult.chunk p true)) n acc
        = readLoop (ps.map (fun p => ReadResult.chunk p true)) (n + 1) (acc ++ [p]) := by
      simp [readLoop]
    simp only [List.map_cons]
    rw [hstep, ih (n + 1) (acc ++ [p])]
    simp only [List.length_cons, List.append_assoc, List.singleton_append, Prod.mk.injEq,
      true_and, and_true]
    omega

/-- Every source is a run of reads that announce more, followed by nothing, by
an error, or by a read that ends the line. -/
theorem source_shape (pending : List ReadResult) :
    ∃ ps : List String,
      pending = ps.map (fun p => ReadResult.chunk p true) ∨
      (∃ err rest, pending
        = ps.map (fun p => ReadResult.chunk p true) ++ ReadResult.fail err :: rest) ∨
      (∃ c rest, pending
        = ps.map (fun p => ReadResult.chunk p true) ++ ReadResult.chunk c false :: rest) := by
  induction pending with
  | nil => exact ⟨[], Or.inl rfl⟩
  | cons r rest ih =>
    cases r with
    | fail err => exact ⟨[], Or.inr (Or.inl ⟨err, rest, rfl⟩)⟩
    | chunk line more =>
      cases more with
      | false => exact ⟨[], Or.inr (Or.inr ⟨line, rest, rfl⟩)⟩
      | true =>
        obtain ⟨ps, h | ⟨err, r2, h⟩ | ⟨c, r2, h⟩⟩ := ih
        · exact ⟨line :: ps, Or.inl (by simp [h])⟩
        · exact ⟨line :: ps, Or.inr (Or.inl ⟨err, r2, by simp [h]⟩)⟩
        · exact ⟨line :: ps, Or.inr (Or.inr ⟨c, r2, by simp [h]⟩)⟩

/-- The first read that does not announce more is determined by the source. -/
theorem first_stop_unique (a b : ReadResult)
    (ha : ∀ p, a ≠ ReadResult.chunk p true) (hb : ∀ p, b ≠ ReadResult.chunk p true) :
    ∀ (ps qs : List String) (r1 r2 : List ReadResult),
      ps.map (fun p => ReadResult.chunk p true) ++ a :: r1
        = qs.map (fun p => ReadResult.chunk p true) ++ b :: r2 → a = b := by
  intro ps
  induction ps with
  | nil =>
    intro qs r1 r2 h
    cases qs with
    | nil => simpa using (List.cons.inj h).1
    | cons q qs => exact absurd (List.cons.inj h).1 (ha q)
  | cons p ps ih =>
    intro qs r1 r2 h
    cases qs with
    | nil => exact absurd (List.cons.inj h).1.symm (hb p)
    | cons q qs => exact ih qs r1 r2 (List.cons.inj h).2

/-- A source of reads that all announce more holds no other read. -/
theorem no_stop_in_chunks (b : ReadResult) (hb : ∀ p, b ≠ ReadResult.chunk p true)
    (ps qs : List String) (r2 : List ReadResult) :
    ps.map (fun p => ReadResult.chunk p true)
      ≠ qs.map (fun p => ReadResult.chunk p true) ++ b :: r2 := by
  intro h
  have hmem : b ∈ ps.map (fun p => ReadResult.chunk p true) := by
    rw [h]; simp
  obtain ⟨p, _, hp⟩ := List.mem_map.mp hmem
  exact hb p hp.symm

/-- Advance with nothing staged, before the end of input, on a source whose
line is cut short by an error other than `io.EOF`: the error is returned. -/
theorem fillnext_read_error (e : engine) (ps : List String) (err : GoError)
    (rest : List ReadResult) (happl : e.appl = none) (hlast : e.lastl = false)
    (herr : err ≠ GoError.EOF)
    (hsrc : e.input.pending
      = ps.map (fun p => ReadResult.chunk p true) ++ ReadResult.fail err :: rest) :
    cmd_fillnext e =
      ({ e with ip := e.ip + 1, pat := e.nxtl, lineno := e.lineno + 1,
                input := { pending := rest, calls := e.input.calls + (ps.length + 1) },
                nxtl := joinLines ps }, some err) := by
  simp only [cmd_fillnext, happl, hlast, hsrc, readLoop_fail, Bool.false_eq_true, if_false]
  simp [herr]

/-- Advance with nothing staged, before the end of input, on a source that
reaches the end of input before the line is complete: success, and the
end-of-input flag is set when nothing was read for the line. -/
theorem fillnext_read_eof (e : engine) (ps : List String) (rest : List ReadResult)
    (happl : e.appl = none) (hlast : e.lastl = false)
    (hsrc : e.input.pending = ps.map (fun p => ReadResult.chunk p true) ∨
      e.input.pending
        = ps.map (fun p => ReadResult.chunk p true) ++ ReadResult.fail GoError.EOF :: rest) :
    (cmd_fillnext e).2 = none ∧ (cmd_fillnext e).1.nxtl = joinLines ps ∧
      (cmd_fillnext e).1.lastl = decide (joinLines ps = "") := by
  rcases hsrc with hsrc | hsrc
  · simp only [cmd_fillnext, happl, hlast, hsrc, readLoop_dry, Bool.false_eq_true, if_false]
    by_cases hz : joinLines ps = "" <;> simp [hz, utf8ByteSize_eq_zero, hlast]
  · simp only [cmd_fillnext, happl, hlast, hsrc, readLoop_fail, Bool.false_eq_true, if_false]
    by_cases hz : joinLines ps = "" <;> simp [hz, utf8ByteSize_eq_zero, hlast]

/-- Advance with nothing staged, before the end of input, on a source that
delivers a whole line. -/
theorem fillnext_read_line (e : engine) (ps : List String) (c : String)
    (rest : List ReadResult) (happl : e.appl = none) (hlast : e.lastl = false)
    (hsrc : e.input.pending
      = ps.map (fun p => ReadResult.chunk p true) ++ ReadResult.chunk c false :: rest) :
    cmd_fillnext e =
      ({ e with ip := e.ip + 1, pat := e.nxtl, lineno := e.lineno + 1,
                input := { pending := rest, calls := e.input.calls + (ps.length + 1) },
                nxtl := joinLines (ps ++ [c]) }, none) := by
  have := fillnext_line e ⟨ps, c⟩ rest happl hlast (by simpa [InputLine.reads] using hsrc)
  simpa [InputLine.text] using this

/-- When advance with nothing staged returns an error: at the end of input it
is `io.EOF`; otherwise it is the error, other than `io.EOF`, that cuts the line
short in the source. -/
theorem fillnext_error_iff (e : engine) (err : GoError) (happl : e.appl = none) :
    (cmd_fillnext e).2 = some err ↔
      (e.lastl = true ∧ err = GoError.EOF) ∨
      (e.lastl = false ∧ err ≠ GoError.EOF ∧
        ∃ (ps : List String) (rest : List ReadResult), e.input.pending
          = ps.map (fun p => ReadResult.chunk p true) ++ ReadResult.fail err :: rest) := by
  have hfail : ∀ (x : GoError) (p : String), ReadResult.fail x ≠ ReadResult.chunk p true := by
    intro x p h; cases h
  have hstop : ∀ (c p : String), ReadResult.chunk c false ≠ ReadResult.chunk p true := by
    intro c p h; cases h
  cases hlast : e.lastl with
  | true =>
    rw [fillnext_at_end e happl hlast]
    constructor
    · intro h
      have : GoError.EOF = err := by simpa using h
      exact Or.inl ⟨rfl, this.symm⟩
    · rintro (⟨_, h⟩ | ⟨h, _⟩)
      · rw [h]
      · cases h
  | false =>
    obtain ⟨ps, h | ⟨err0, rest, h⟩ | ⟨c, rest, h⟩⟩ := source_shape e.input.pending
    · have hok := (fillnext_read_eof e ps [] happl hlast (Or.inl h)).1
      constructor
      · intro hx; rw [hok] at hx; cases hx
      · rintro (⟨hx, _⟩ | ⟨_, _, qs, r2, hq⟩)
        · cases hx
        · rw [h] at hq
          exact absurd hq (no_stop_in_chunks _ (hfail err) ps qs r2)
    · by_cases heof : err0 = GoError.EOF
      · subst heof
        have hok := (fillnext_read_eof e ps rest happl hlast (Or.inr h)).1
        constructor
        · intro hx; rw [hok] at hx; cases hx
        · rintro (⟨hx, _⟩ | ⟨_, hne, qs, r2, hq⟩)
          · cases hx
          · rw [h] at hq
            have := first_stop_unique _ _ (hfail GoError.EOF) (hfail err) ps qs rest r2 hq
            exact absurd (ReadResult.fail.inj this).symm hne
      · rw [fillnext_read_error e ps err0 rest happl hlast heof h]
        constructor
        · intro hx
          have hx2 : err0 = err := by simpa using hx
          subst hx2
          exact Or.inr ⟨rfl, heof, ps, rest, h⟩
        · rintro (⟨hx, _⟩ | ⟨_, _, qs, r2, hq⟩)
          · cases hx
          · rw [h] at hq
            have := first_stop_unique _ _ (hfail err0) (hfail err) ps qs rest r2 hq
            rw [ReadResult.fail.inj this]
    · rw [fillnext_read_line e ps c rest happl hlast h]
      constructor
      · intro hx; cases hx
      · rintro (⟨hx, _⟩ | ⟨_, _, qs, r2, hq⟩)
        · cases hx
        · rw [h] at hq
          have := first_stop_unique _ _ (hstop c) (hfail err) ps qs rest r2 hq
          cases this

/-- C11 (advance fails iff): `cmd_fillnext` returns the error `err` exactly
when (a) the sink refuses the flush of the append queue with `err`, or (b) the
flush did not fail, `at_last_line` is already true and `err` is `io.EOF`, or
(c) the flush did not fail, `at_last_line` is false, and the line source,
after any number of reads that announce more, gives the error `err`, which is
not `io.EOF`.  When the source instead reaches the end of input (it is used
up, or reports `io.EOF`) with nothing read for the line, the call succeeds,
sets `at_last_line` and leaves the lookahead empty. -/
theorem advance_fails_iff (e : engine) (err : GoError) :
    ((cmd_fillnext e).2 = some err ↔
      (∃ text, e.appl = some text ∧ (e.output.WriteString text).2 = some err) ∨
      ((∀ text, e.appl = some text → (e.output.WriteString text).2 = none) ∧
        e.lastl = true ∧ err = GoError.EOF) ∨
      ((∀ text, e.appl = some text → (e.output.WriteString text).2 = none) ∧
        e.lastl = false ∧ err ≠ GoError.EOF ∧
        ∃ (ps : List String) (rest : List ReadResult), e.input.pending
          = ps.map (fun p => ReadResult.chunk p true) ++ ReadResult.fail err :: rest)) ∧
    ((∀ text, e.appl = some text → (e.output.WriteString text).2 = none) →
      e.lastl = false →
      ∀ (ps : List String) (rest : List ReadResult), joinLines ps = "" →
        (e.input.pending = ps.map (fun p => ReadResult.chunk p true) ∨
          e.input.pending = ps.map (fun p => ReadResult.chunk p true)
            ++ ReadResult.fail GoError.EOF :: rest) →
        (cmd_fillnext e).2 = none ∧ (cmd_fillnext e).1.lastl = true ∧
          (cmd_fillnext e).1.nxtl = "") := by
  cases happl : e.appl with
  | none =>
    have hiff := fillnext_error_iff e err happl
    refine ⟨?_, ?_⟩
    · rw [hiff]
      constructor
      · rintro (⟨h1, h2⟩ | ⟨h1, h2, h3⟩)
        · exact Or.inr (Or.inl ⟨(by intro t ht; cases ht), h1, h2⟩)
        · exact Or.inr (Or.inr ⟨(by intro t ht; cases ht), h1, h2, h3⟩)
      · rintro (⟨t, ht, _⟩ | ⟨_, h1, h2⟩ | ⟨_, h1, h2, h3⟩)
        · cases ht
        · exact Or.inl ⟨h1, h2⟩
        · exact Or.inr ⟨h1, h2, h3⟩
    · intro _ hlast ps rest hz hsrc
      have := fillnext_read_eof e ps rest happl hlast hsrc
      refine ⟨this.1, ?_, ?_⟩
      · rw [this.2.2]; simp [hz]
      · rw [this.2.1]; exact hz
  | some text =>
    cases hw : (e.output.WriteString text).2 with
    | some werr =>
      refine ⟨?_, ?_⟩
      · rw [fillnext_flush_refused e text werr happl hw]
        constructor
        · intro hx
          have hx2 : werr = err := by simpa using hx
          subst hx2
          exact Or.inl ⟨text, rfl, hw⟩
        · rintro (⟨t, ht, h2⟩ | ⟨hall, _⟩ | ⟨hall, _⟩)
          · cases ht
            rw [hw] at h2
            simpa using h2
          · have := hall text rfl; rw [hw] at this; cases this
          · have := hall text rfl; rw [hw] at this; cases this
      · intro hall
        have := hall text rfl; rw [hw] at this; cases this
    | none =>
      have hflush := fillnext_flush e text happl hw
      have hiff := fillnext_error_iff
        { e with output := (e.output.WriteString text).1, appl := none } err rfl
      refine ⟨?_, ?_⟩
      · rw [hflush, hiff]
        constructor
        · rintro (⟨h1, h2⟩ | ⟨h1, h2, h3⟩)
          · exact Or.inr (Or.inl ⟨(by intro t ht; cases ht; exact hw), h1, h2⟩)
          · exact Or.inr (Or.inr ⟨(by intro t ht; cases ht; exact hw), h1, h2, h3⟩)
        · rintro (⟨t, ht, h2⟩ | ⟨_, h1, h2⟩ | ⟨_, h1, h2, h3⟩)
          · cases ht
            rw [hw] at h2; cases h2
          · exact Or.inl ⟨h1, h2⟩
          · exact Or.inr ⟨h1, h2, h3⟩
      · intro _ hlast ps rest hz hsrc
        rw [hflush]
        have := fillnext_read_eof
          { e with output := (e.output.WriteString text).1, appl := none } ps rest rfl hlast hsrc
        refine ⟨this.1, ?_, ?_⟩
        · rw [this.2.2]; simp [hz]
        · rw [this.2.1]; exact hz

/-- C12 (joining sub-reads): `at_last_line` is false, the sink accepts the
flush of whatever is staged, and the line source gives the pieces `ps`, each
announcing more, and then the piece `c` that ends the line, so
`k = ps.length + 1` reads without error.  Then `cmd_fillnext` succeeds, the
lookahead is the pieces joined in order, exactly `k` reads were made and taken
off the source, and `at_last_line` is still false. -/
theorem joining_sub_reads (e : engine) (ps : List String) (c : String)
    (rest : List ReadResult) (hlast : e.lastl = false)
    (hflush : ∀ text, e.appl = some text → (e.output.WriteString text).2 = none)
    (hsrc : e.input.pending
      = ps.map (fun p => ReadResult.chunk p true) ++ ReadResult.chunk c false :: rest) :
    (cmd_fillnext e).2 = none ∧
      (cmd_fillnext e).1.nxtl = String.join (ps ++ [c]) ∧
      (cmd_fillnext e).1.input.pending = rest ∧
      (cmd_fillnext e).1.input.calls = e.input.calls + (ps.length + 1) ∧
      (cmd_fillnext e).1.lastl = false ∧
      (cmd_fillnext e).1.pat = e.nxtl := by
  have hjoin : joinLines (ps ++ [c]) = String.join (ps ++ [c]) := rfl
  cases happl : e.appl with
  | none =>
    rw [fillnext_read_line e ps c rest happl hlast hsrc]
    exact ⟨rfl, hjoin, rfl, rfl, hlast, rfl⟩
  | some text =>
    rw [fillnext_flush e text happl (hflush text happl),
      fillnext_read_line { e with output := (e.output.WriteString text).1, appl := none }
        ps c rest rfl hlast hsrc]
    exact ⟨rfl, hjoin, rfl, rfl, hlast, rfl⟩

/-- C12 on the line `abcd`, delivered as `ab`, `c` and `d`. -/
theorem joining_sub_reads_witness :
    ({ engineAt 1 with
        input := { pending := [ReadResult.chunk "ab" true, ReadResult.chunk "c" true,
                     ReadResult.chunk "d" false, ReadResult.chunk "next" false],
                   calls := 0 } }.lastl = false) ∧
      (cmd_fillnext { engineAt 1 with
        input := { pending := [ReadResult.chunk "ab" true, ReadResult.chunk "c" true,
                     ReadResult.chunk "d" false, ReadResult.chunk "next" false],
                   calls := 0 } }).1.nxtl = String.join (["ab", "c"] ++ ["d"]) ∧
      (cmd_fillnext { engineAt 1 with
        input := { pending := [ReadResult.chunk "ab" true, ReadResult.chunk "c" true,
                     ReadResult.chunk "d" false, ReadResult.chunk "next" false],
                   calls := 0 } }).1.input.calls = 0 + (2 + 1) :=
  ⟨rfl,
    (joining_sub_reads { engineAt 1 with
        input := { pending := [ReadResult.chunk "ab" true, ReadResult.chunk "c" true,
                     ReadResult.chunk "d" false, ReadResult.chunk "next" false],
                   calls := 0 } } ["ab", "c"] "d" [ReadResult.chunk "next" false]
      rfl (fun _ h => by cases h) rfl).2.1,
    (joining_sub_reads { engineAt 1 with
        input := { pending := [ReadResult.chunk "ab" true, ReadResult.chunk "c" true,
                     ReadResult.chunk "d" false, ReadResult.chunk "next" false],
                   calls := 0 } } ["ab", "c"] "d" [ReadResult.chunk "next" false]
      rfl (fun _ h => by cases h) rfl).2.2.2.1⟩

/-! ## What each instruction leaves alone -/

theorem print_shape (e : engine) :
    ∃ o err, cmd_print e = ({ e with ip := e.ip + 1, output := o }, err) := by
  simp only [cmd_print]
  cases hw : (e.output.WriteString e.pat).2 with
  | none =>
    refine ⟨((e.output.WriteString e.pat).1.WriteByte '\n').1,
      ((e.output.WriteString e.pat).1.WriteByte '\n').2, ?_⟩
    have hpair : e.output.WriteString e.pat = ((e.output.WriteString e.pat).1, none) := by
      rw [← hw]
    rw [hpair]
  | some err =>
    refine ⟨(e.output.WriteString e.pat).1, some err, ?_⟩
    have hpair : e.output.WriteString e.pat = ((e.output.WriteString e.pat).1, some err) := by
      rw [← hw]
    rw [hpair]

theorem lineno_shape (e : engine) :
    ∃ o err, cmd_lineno e = ({ e with ip := e.ip + 1, output := o }, err) :=
  ⟨_, _, rfl⟩

theorem inserter_shape (text : String) (e : engine) :
    ∃ o err, cmd_newInserter text e = ({ e with ip := e.ip + 1, output := o }, err) :=
  ⟨_, _, rfl⟩

theorem appender_shape (text : String) (e : engine) :
    ∃ q, cmd_newAppender text e = ({ e with ip := e.ip + 1, appl := some q }, none) := by
  simp only [cmd_newAppender]
  cases e.appl with
  | none => exact ⟨text, rfl⟩
  | some old => exact ⟨old ++ text, rfl⟩

theorem change_shape (guard : Option cmd_twocond) (text : String) (e : engine) :
    ∃ o err, cmd_change.run guard text e = ({ e with ip := 0, output := o }, err) := by
  have hfire : ∀ g : cmd_twocond,
      g.isLastLine { e with ip := 0 } = g.isLastLine e := fun _ => rfl
  cases guard with
  | none => exact ⟨_, _, rfl⟩
  | some g =>
    simp only [cmd_change.run, hfire]
    cases g.isLastLine e
    · exact ⟨e.output, none, by simp⟩
    · exact ⟨_, _, rfl⟩

theorem simplecond_shape (c : cmd_simplecond) (e : engine) :
    c.run e = ({ e with ip := if c.cond e then c.metloc else c.unmetloc }, none) := by
  simp only [cmd_simplecond.run]
  cases c.cond e <;> simp

/-- An evaluation of an activator changes nothing in the engine but the
instruction pointer, which goes to the met or to the unmet target, and returns
no error. -/
theorem twocond_run_engine (c : cmd_twocond) (e : engine) :
    ((c.run e).2.1 = { e with ip := c.metloc } ∨ (c.run e).2.1 = { e with ip := c.unmetloc }) ∧
      (c.run e).2.2 = none := by
  rcases c with ⟨st, en, ml, ul, act, off⟩
  simp only [cmd_twocond.run]
  split_ifs <;> simp

/-- The two ways a call of the advance instruction goes when nothing is
staged: it returns at the end-of-input check and changes nothing, or it loads
the lookahead, counts the line and reads on, in which case it does not return
`io.EOF`. -/
theorem fillnext_cases_unstaged (e : engine) (happl : e.appl = none) :
    (e.lastl = true ∧ cmd_fillnext e = (e, some GoError.EOF)) ∨
    (e.lastl = false ∧ ∃ inp nx la err,
      cmd_fillnext e =
        ({ e with ip := e.ip + 1, pat := e.nxtl, lineno := e.lineno + 1, input := inp,
                  nxtl := nx, lastl := la }, err) ∧ err ≠ some GoError.EOF) := by
  cases hlast : e.lastl with
  | true => exact Or.inl ⟨rfl, fillnext_at_end e happl hlast⟩
  | false =>
    refine Or.inr ⟨rfl, ?_⟩
    simp only [cmd_fillnext, happl, hlast, Bool.false_eq_true, if_false]
    split_ifs with h1 h2
    · exact ⟨_, _, true, none, rfl, by simp⟩
    · exact ⟨_, _, false, none, rfl, by simp⟩
    · exact ⟨_, _, false, _, rfl, h1⟩

/-- The three ways a call of the advance instruction goes: the flush is
refused; or it returns `io.EOF` at the end-of-input check; or it loads the
lookahead, counts the line and reads on, and then does not return `io.EOF`.
In the first two only the output and the append queue can have changed. -/
theorem fillnext_cases (e : engine) :
    (∃ o err, cmd_fillnext e = ({ e with output := o, appl := none }, some err)) ∨
    (e.lastl = false ∧ ∃ o inp nx la err,
      cmd_fillnext e =
        ({ e with output := o, appl := none, ip := e.ip + 1, pat := e.nxtl,
                  lineno := e.lineno + 1, input := inp, nxtl := nx, lastl := la }, err) ∧
        err ≠ some GoError.EOF) := by
  cases happl : e.appl with
  | none =>
    rcases fillnext_cases_unstaged e happl with ⟨_, h⟩ | ⟨hl, inp, nx, la, err, h, hne⟩
    · refine Or.inl ⟨e.output, GoError.EOF, ?_⟩
      rw [h]; simp [← happl]
    · refine Or.inr ⟨hl, e.output, inp, nx, la, err, ?_, hne⟩
      rw [h]; simp [happl]
  | some text =>
    cases hw : (e.output.WriteString text).2 with
    | some werr =>
      exact Or.inl ⟨_, werr, fillnext_flush_refused e text werr happl hw⟩
    | none =>
      have hflush := fillnext_flush e text happl hw
      rcases fillnext_cases_unstaged
          { e with output := (e.output.WriteString text).1, appl := none } rfl
        with ⟨_, h⟩ | ⟨hl, inp, nx, la, err, h, hne⟩
      · exact Or.inl ⟨(e.output.WriteString text).1, GoError.EOF, by rw [hflush, h]⟩
      · exact Or.inr ⟨hl, (e.output.WriteString text).1, inp, nx, la, err,
          by rw [hflush, h], hne⟩

theorem fillnext_lastl (e : engine) (h : e.lastl = true) : (cmd_fillnext e).1.lastl = true := by
  rcases fillnext_cases e with ⟨o, err, hc⟩ | ⟨hl, _⟩
  · rw [hc]; exact h
  · rw [h] at hl; cases hl

theorem fillnext_hold (e : engine) : (cmd_fillnext e).1.hold = e.hold := by
  rcases fillnext_cases e with ⟨o, err, hc⟩ | ⟨_, o, inp, nx, la, err, hc, _⟩ <;> rw [hc]

/-- No instruction other than advance touches the end-of-input flag or the
line counter. -/
theorem exec_frame (i : instruction) (m : Machine) (r : Machine × Option GoError)
    (hi : i ≠ instruction.fillnext) (h : i.exec m = some r) :
    r.1.eng.lastl = m.eng.lastl ∧ r.1.eng.lineno = m.eng.lineno := by
  cases i with
  | fillnext => exact absurd rfl hi
  | swap | get | hold | getapp | holdapp =>
    simp only [instruction.exec, Option.some.injEq] at h
    subst h; exact ⟨rfl, rfl⟩
  | branch target =>
    simp only [instruction.exec, Option.some.injEq] at h
    subst h; exact ⟨rfl, rfl⟩
  | print =>
    simp only [instruction.exec, Option.some.injEq] at h
    subst h
    obtain ⟨o, err, hs⟩ := print_shape m.eng
    simp only [hs]; exact ⟨trivial, trivial⟩
  | lineno =>
    simp only [instruction.exec, Option.some.injEq] at h
    subst h; exact ⟨rfl, rfl⟩
  | simplecond c =>
    simp only [instruction.exec, Option.some.injEq] at h
    subst h
    simp only [simplecond_shape]; exact ⟨trivial, trivial⟩
  | twocond ref =>
    simp only [instruction.exec] at h
    cases hs : m.store[ref]? with
    | none => simp [hs] at h
    | some c =>
      simp only [hs, Option.some.injEq] at h
      subst h
      rcases (twocond_run_engine c m.eng).1 with he | he <;> simp only [he] <;>
        exact ⟨trivial, trivial⟩
  | change guard text =>
    cases guard with
    | none =>
      simp only [instruction.exec, Option.some.injEq] at h
      subst h
      obtain ⟨o, err, hs⟩ := change_shape none text m.eng
      simp only [hs]; exact ⟨trivial, trivial⟩
    | some ref =>
      simp only [instruction.exec] at h
      cases hs : m.store[ref]? with
      | none => simp [hs] at h
      | some g =>
        simp only [hs, Option.some.injEq] at h
        subst h
        obtain ⟨o, err, hs2⟩ := change_shape (some g) text m.eng
        simp only [hs2]; exact ⟨trivial, trivial⟩
  | appender text =>
    simp only [instruction.exec, Option.some.injEq] at h
    subst h
    obtain ⟨q, hs⟩ := appender_shape text m.eng
    simp only [hs]; exact ⟨trivial, trivial⟩
  | inserter text =>
    simp only [instruction.exec, Option.some.injEq] at h
    subst h; exact ⟨rfl, rfl⟩

/-- No instruction other than swap, hold and hold-append touches the hold
space. -/
theorem exec_hold (i : instruction) (m : Machine) (r : Machine × Option GoError)
    (h1 : i ≠ instruction.swap) (h2 : i ≠ instruction.hold) (h3 : i ≠ instruction.holdapp)
    (h : i.exec m = some r) : r.1.eng.hold = m.eng.hold := by
  cases i with
  | swap => exact absurd rfl h1
  | hold => exact absurd rfl h2
  | holdapp => exact absurd rfl h3
  | get | getapp =>
    simp only [instruction.exec, Option.some.injEq] at h
    subst h; rfl
  | branch target =>
    simp only [instruction.exec, Option.some.injEq] at h
    subst h; rfl
  | fillnext =>
    simp only [instruction.exec, Option.some.injEq] at h
    subst h; exact fillnext_hold m.eng
  | print =>
    simp only [instruction.exec, Option.some.injEq] at h
    subst h
    obtain ⟨o, err, hs⟩ := print_shape m.eng
    simp only [hs]
  | lineno =>
    simp only [instruction.exec, Option.some.injEq] at h
    subst h; rfl
  | simplecond c =>
    simp only [instruction.exec, Option.some.injEq] at h
    subst h
    simp only [simplecond_shape]
  | twocond ref =>
    simp only [instruction.exec] at h
    cases hs : m.store[ref]? with
    | none => simp [hs] at h
    | some c =>
      simp only [hs, Option.some.injEq] at h
      subst h
      rcases (twocond_run_engine c m.eng).1 with he | he <;> simp only [he]
  | change guard text =>
    cases guard with
    | none =>
      simp only [instruction.exec, Option.some.injEq] at h
      subst h
      obtain ⟨o, err, hs⟩ := change_shape none text m.eng
      simp only [hs]
    | some ref =>
      simp only [instruction.exec] at h
      cases hs : m.store[ref]? with
      | none => simp [hs] at h
      | some g =>
        simp only [hs, Option.some.injEq] at h
        subst h
        obtain ⟨o, err, hs2⟩ := change_shape (some g) text m.eng
        simp only [hs2]
  | appender text =>
    simp only [instruction.exec, Option.some.injEq] at h
    subst h
    obtain ⟨q, hs⟩ := appender_shape text m.eng
    simp only [hs]
  | inserter text =>
    simp only [instruction.exec, Option.some.injEq] at h
    subst h; rfl

/-- A property of the machine that every instruction of the program keeps,
when run where the instruction pointer points, holds for the machine at the
end of a run, however long, that started with it. -/
theorem runLoop_preserves (P : Machine → Prop) (prog : List instruction)
    (hstep : ∀ i m r, P m → 0 ≤ m.eng.ip → prog[m.eng.ip.toNat]? = some i →
      instruction.exec i m = some r → P r.1) :
    ∀ (fuel : Nat) (m : Machine), P m → P (runLoop prog fuel m).machine := by
  intro fuel
  induction fuel with
  | zero => intro m hm; exact hm
  | succ fuel ih =>
    intro m hm
    simp only [runLoop]
    by_cases hneg : m.eng.ip < 0
    · simp only [hneg, if_true]; exact hm
    · simp only [hneg, if_false]
      cases hi : prog[m.eng.ip.toNat]? with
      | none => exact hm
      | some i =>
        simp only
        cases hx : i.exec m with
        | none => exact hm
        | some r =>
          obtain ⟨m1, err⟩ := r
          have hm1 := hstep i m (m1, err) hm (by omega) hi hx
          cases err with
          | none => exact ih m1 hm1
          | some err => exact hm1

/-- C13 (`at_last_line` is monotone): whichever of the fourteen instructions is
run, on whatever machine, and whether it returns an error or not, if
`at_last_line` was true before it is true afterwards; every instruction other
than advance leaves the flag as it was, also when it was false.  A range
branch and a block replace do so for every activator.  Hence, from a machine
in which the flag is true, the flag is true in the machine at the end of every
run, of any program and any number of steps: once set it never reverts. -/
theorem at_last_line_monotone :
    (∀ (i : instruction) (m : Machine) (r : Machine × Option GoError),
      m.eng.lastl = true → i.exec m = some r → r.1.eng.lastl = true) ∧
    (∀ (i : instruction) (m : Machine) (r : Machine × Option GoError),
      i ≠ instruction.fillnext → i.exec m = some r → r.1.eng.lastl = m.eng.lastl) ∧
    (∀ e : engine, e.lastl = true → (cmd_fillnext e).1.lastl = true) ∧
    (∀ (c : cmd_twocond) (e : engine), (c.run e).2.1.lastl = e.lastl) ∧
    (∀ (g : Option cmd_twocond) (text : String) (e : engine),
      (cmd_change.run g text e).1.lastl = e.lastl) ∧
    (∀ (prog : List instruction) (fuel : Nat) (m : Machine),
      m.eng.lastl = true → (runLoop prog fuel m).machine.eng.lastl = true) := by
  have hstep : ∀ (i : instruction) (m : Machine) (r : Machine × Option GoError),
      m.eng.lastl = true → i.exec m = some r → r.1.eng.lastl = true := by
    intro i m r hm h
    by_cases hi : i = instruction.fillnext
    · subst hi
      simp only [instruction.exec, Option.some.injEq] at h
      subst h
      exact fillnext_lastl m.eng hm
    · rw [(exec_frame i m r hi h).1]; exact hm
  refine ⟨hstep, fun i m r hi h => (exec_frame i m r hi h).1, fillnext_lastl, ?_, ?_, ?_⟩
  · intro c e
    rcases (twocond_run_engine c e).1 with he | he <;> rw [he]
  · intro g text e
    obtain ⟨o, err, hs⟩ := change_shape g text e
    rw [hs]
  · intro prog fuel m hm
    exact runLoop_preserves (fun x => x.eng.lastl = true) prog
      (fun i x r hx _ _ h => hstep i x r hx h) fuel m hm

/-- In the range of a 64-bit `int` nothing wraps. -/
theorem wrapInt64_inRange (n : Int) (hlo : minInt64 ≤ n) (hhi : n ≤ maxInt64) :
    wrapInt64 n = n := by
  unfold wrapInt64
  unfold minInt64 at hlo
  unfold maxInt64 at hhi
  omega

/-- With 64-bit arithmetic: advance with nothing staged once the end-of-input
flag is set. -/
theorem fillnext64_at_end (e : engine) (happl : e.appl = none) (hlast : e.lastl = true) :
    cmd_fillnext64 e = (e, some GoError.EOF) := by
  simp [cmd_fillnext64, happl, hlast]

/-- With 64-bit arithmetic: advance with staged text that the sink accepts is
the flush followed by an advance with nothing staged. -/
theorem fillnext64_flush (e : engine) (text : String) (h : e.appl = some text)
    (hw : (e.output.WriteString text).2 = none) :
    cmd_fillnext64 e
      = cmd_fillnext64 { e with output := (e.output.WriteString text).1, appl := none } := by
  simp only [cmd_fillnext64, h, hw]

/-- With 64-bit arithmetic: advance with staged text that the sink refuses. -/
theorem fillnext64_flush_refused (e : engine) (text : String) (err : GoError)
    (h : e.appl = some text) (hw : (e.output.WriteString text).2 = some err) :
    cmd_fillnext64 e
      = ({ e with output := (e.output.WriteString text).1, appl := none }, some err) := by
  simp only [cmd_fillnext64, h, hw]

/-- With 64-bit arithmetic: the two ways a call of the advance instruction goes
when nothing is staged. -/
theorem fillnext64_cases_unstaged (e : engine) (happl : e.appl = none) :
    (e.lastl = true ∧ cmd_fillnext64 e = (e, some GoError.EOF)) ∨
    (e.lastl = false ∧ ∃ inp nx la err,
      cmd_fillnext64 e =
        ({ e with ip := wrapInt64 (e.ip + 1), pat := e.nxtl,
                  lineno := wrapInt64 (e.lineno + 1), input := inp,
                  nxtl := nx, lastl := la }, err) ∧ err ≠ some GoError.EOF) := by
  cases hlast : e.lastl with
  | true => exact Or.inl ⟨rfl, fillnext64_at_end e happl hlast⟩
  | false =>
    refine Or.inr ⟨rfl, ?_⟩
    simp only [cmd_fillnext64, happl, hlast, Bool.false_eq_true, if_false]
    split_ifs with h1 h2
    · exact ⟨_, _, true, none, rfl, by simp⟩
    · exact ⟨_, _, false, none, rfl, by simp⟩
    · exact ⟨_, _, false, _, rfl, h1⟩

/-- With 64-bit arithmetic: the three ways a call of the advance instruction
goes.  The flush is refused; or `io.EOF` is returned at the end-of-input check;
or the lookahead is loaded, the line is counted with a 64-bit increment and the
source is read, and then `io.EOF` is not returned. -/
theorem fillnext64_cases (e : engine) :
    (∃ o err, cmd_fillnext64 e = ({ e with output := o, appl := none }, some err)) ∨
    (e.lastl = false ∧ ∃ o inp nx la err,
      cmd_fillnext64 e =
        ({ e with output := o, appl := none, ip := wrapInt64 (e.ip + 1), pat := e.nxtl,
                  lineno := wrapInt64 (e.lineno + 1), input := inp, nxtl := nx,
                  lastl := la }, err) ∧
        err ≠ some GoError.EOF) := by
  cases happl : e.appl with
  | none =>
    rcases fillnext64_cases_unstaged e happl with ⟨_, h⟩ | ⟨hl, inp, nx, la, err, h, hne⟩
    · refine Or.inl ⟨e.output, GoError.EOF, ?_⟩
      rw [h]; simp [← happl]
    · refine Or.inr ⟨hl, e.output, inp, nx, la, err, ?_, hne⟩
      rw [h]; simp [happl]
  | some text =>
    cases hw : (e.output.WriteString text).2 with
    | some werr =>
      exact Or.inl ⟨_, werr, fillnext64_flush_refused e text werr happl hw⟩
    | none =>
      have hflush := fillnext64_flush e text happl hw
      rcases fillnext64_cases_unstaged
          { e with output := (e.output.WriteString text).1, appl := none } rfl
        with ⟨_, h⟩ | ⟨hl, inp, nx, la, err, h, hne⟩
      · exact Or.inl ⟨(e.output.WriteString text).1, GoError.EOF, by rw [hflush, h]⟩
      · exact Or.inr ⟨hl, (e.output.WriteString text).1, inp, nx, la, err,
          by rw [hflush, h], hne⟩

/-- The advance instruction on unbounded integers and the one with 64-bit
arithmetic are the same function on every engine whose instruction pointer and
line counter are 64-bit values below the largest one. -/
theorem cmd_fillnext64_eq (e : engine)
    (h1 : minInt64 ≤ e.ip) (h2 : e.ip < maxInt64)
    (h3 : minInt64 ≤ e.lineno) (h4 : e.lineno < maxInt64) :
    cmd_fillnext64 e = cmd_fillnext e := by
  have hip : wrapInt64 (e.ip + 1) = e.ip + 1 :=
    wrapInt64_inRange _ (by unfold minInt64 at *; omega) (by unfold maxInt64 at *; omega)
  have hln : wrapInt64 (e.lineno + 1) = e.lineno + 1 :=
    wrapInt64_inRange _ (by unfold minInt64 at *; omega) (by unfold maxInt64 at *; omega)
  cases happl : e.appl with
  | none => simp only [cmd_fillnext64, cmd_fillnext, happl, hip, hln]
  | some text =>
    cases hw : (e.output.WriteString text).2 <;>
      simp only [cmd_fillnext64, cmd_fillnext, happl, hw, hip, hln]

/-- C14, as stated, fails on a 64-bit `int`: at the largest line number
`2^63 - 1`, with nothing staged, the end of input not reached and the source
used up, `cmd_fillnext` returns no error and `e.lineno++` wraps around to
`-2^63`.  So a successful advance has decreased `line_number`, and has not
increased it by one. -/
theorem line_number_wraps_counterexample :
    (cmd_fillnext64 (engineAt 9223372036854775807)).2 = none ∧
      (cmd_fillnext64 (engineAt 9223372036854775807)).1.lineno = -9223372036854775808 ∧
      ¬ ((engineAt 9223372036854775807).lineno
          ≤ (cmd_fillnext64 (engineAt 9223372036854775807)).1.lineno) ∧
      ¬ ((cmd_fillnext64 (engineAt 9223372036854775807)).1.lineno
          = (engineAt 9223372036854775807).lineno + 1) := by
  decide

/-- C14, amended (`line_number` is monotone and counts advances below the
largest `int`): for every engine whose `line_number` is a 64-bit value below
the largest one, a call of `cmd_fillnext`, computed with 64-bit arithmetic,
does not decrease `line_number`, whether it returns an error or not, and
increases it by exactly one when it returns no error.  In every engine a call
that returns `io.EOF` leaves `line_number` as it was, and every instruction
other than advance, run on whatever machine, leaves it as it was; a range
branch and a block replace do so for every activator. -/
theorem line_number_counts_advances (e : engine)
    (hlo : minInt64 ≤ e.lineno) (hhi : e.lineno < maxInt64) :
    e.lineno ≤ (cmd_fillnext64 e).1.lineno ∧
    ((cmd_fillnext64 e).2 = none → (cmd_fillnext64 e).1.lineno = e.lineno + 1) ∧
    (∀ x : engine, (cmd_fillnext64 x).2 = some GoError.EOF →
      (cmd_fillnext64 x).1.lineno = x.lineno) ∧
    (∀ (i : instruction) (m : Machine) (r : Machine × Option GoError),
      i ≠ instruction.fillnext → i.exec m = some r → r.1.eng.lineno = m.eng.lineno) ∧
    (∀ (c : cmd_twocond) (x : engine), (c.run x).2.1.lineno = x.lineno) ∧
    (∀ (g : Option cmd_twocond) (text : String) (x : engine),
      (cmd_change.run g text x).1.lineno = x.lineno) := by
  have hln : wrapInt64 (e.lineno + 1) = e.lineno + 1 :=
    wrapInt64_inRange _ (by unfold minInt64 at *; omega) (by unfold maxInt64 at *; omega)
  refine ⟨?_, ?_, ?_, fun i m r hi h => (exec_frame i m r hi h).2, ?_, ?_⟩
  · rcases fillnext64_cases e with ⟨o, err, hc⟩ | ⟨_, o, inp, nx, la, err, hc, _⟩
    · rw [hc]
    · rw [hc]; simp only [hln]; omega
  · intro h
    rcases fillnext64_cases e with ⟨o, err, hc⟩ | ⟨_, o, inp, nx, la, err, hc, _⟩
    · rw [hc] at h; cases h
    · rw [hc]; exact hln
  · intro x h
    rcases fillnext64_cases x with ⟨o, err, hc⟩ | ⟨_, o, inp, nx, la, err, hc, hne⟩
    · rw [hc]
    · rw [hc] at h; exact absurd h hne
  · intro c x
    rcases (twocond_run_engine c x).1 with he | he <;> rw [he]
  · intro g text x
    obtain ⟨o, err, hs⟩ := change_shape g text x
    rw [hs]

/-- The amended C14 on an engine at line 3 with a further line in the source:
the advance succeeds and the line counter goes from 3 to 4. -/
theorem line_number_counts_advances_witness :
    (minInt64 ≤ { engineAt 3 with
        input := { pending := [ReadResult.chunk "next" false], calls := 0 } }.lineno ∧
      { engineAt 3 with
        input := { pending := [ReadResult.chunk "next" false], calls := 0 } }.lineno
        < maxInt64 ∧
      (cmd_fillnext64 { engineAt 3 with
        input := { pending := [ReadResult.chunk "next" false], calls := 0 } }).2 = none) ∧
    (cmd_fillnext64 { engineAt 3 with
        input := { pending := [ReadResult.chunk "next" false], calls := 0 } }).1.lineno
      = { engineAt 3 with
        input := { pending := [ReadResult.chunk "next" false], calls := 0 } }.lineno + 1 :=
  ⟨⟨by decide, by decide, by decide⟩,
    (line_number_counts_advances { engineAt 3 with
        input := { pending := [ReadResult.chunk "next" false], calls := 0 } }
      (by decide) (by decide)).2.1 (by decide)⟩

/-- C15 (hold space frame): every instruction other than swap, hold and
hold-append, run on whatever machine, leaves the hold space equal to its value
before, whether it returns an error or not.  Spelled out for the eleven:
get, get-append, branch, print, line number, advance, conditional branch,
range branch, block replace, stage-append and insert. -/
theorem hold_space_frame :
    (∀ (i : instruction) (m : Machine) (r : Machine × Option GoError),
      i ≠ instruction.swap → i ≠ instruction.hold → i ≠ instruction.holdapp →
      i.exec m = some r → r.1.eng.hold = m.eng.hold) ∧
    (∀ e : engine,
      (cmd_get e).1.hold = e.hold ∧ (cmd_getapp e).1.hold = e.hold ∧
      (cmd_print e).1.hold = e.hold ∧ (cmd_lineno e).1.hold = e.hold ∧
      (cmd_fillnext e).1.hold = e.hold) ∧
    (∀ (target : Int) (e : engine), (cmd_newBranch target e).1.hold = e.hold) ∧
    (∀ (c : cmd_simplecond) (e : engine), (c.run e).1.hold = e.hold) ∧
    (∀ (c : cmd_twocond) (e : engine), (c.run e).2.1.hold = e.hold) ∧
    (∀ (g : Option cmd_twocond) (text : String) (e : engine),
      (cmd_change.run g text e).1.hold = e.hold) ∧
    (∀ (text : String) (e : engine),
      (cmd_newAppender text e).1.hold = e.hold ∧ (cmd_newInserter text e).1.hold = e.hold) := by
  refine ⟨exec_hold, ?_, fun _ _ => rfl, ?_, ?_, ?_, ?_⟩
  · intro e
    refine ⟨rfl, rfl, ?_, rfl, fillnext_hold e⟩
    obtain ⟨o, err, hs⟩ := print_shape e
    rw [hs]
  · intro c e
    rw [simplecond_shape]
  · intro c e
    rcases (twocond_run_engine c e).1 with he | he <;> rw [he]
  · intro g text e
    obtain ⟨o, err, hs⟩ := change_shape g text e
    rw [hs]
  · intro text e
    obtain ⟨q, hs⟩ := appender_shape text e
    rw [hs]
    exact ⟨rfl, rfl⟩

/-! ## The instruction pointer stays inside the program -/

/-- Putting an activator with the same targets in the place of one of the
store keeps the program well formed. -/
theorem WellFormed_set (prog : List instruction) (store : List cmd_twocond) (ref : Nat)
    (c c1 : cmd_twocond) (hc : store[ref]? = some c)
    (hm : c1.metloc = c.metloc) (hu : c1.unmetloc = c.unmetloc)
    (hwf : WellFormed prog store) : WellFormed prog (store.set ref c1) := by
  intro n i hi
  have hfit := hwf n i hi
  cases i with
  | twocond ref2 =>
    simp only [instruction.fitsAt] at hfit ⊢
    intro c2 hc2
    rw [List.getElem?_set] at hc2
    by_cases hr : ref = ref2
    · subst hr
      have hlt : ref < store.length := by
        rcases List.getElem?_eq_some.mp hc with ⟨hlt, _⟩
        exact hlt
      simp only [hlt, if_true, Option.some.injEq] at hc2
      subst hc2
      rw [hm, hu]
      exact hfit c hc
    · simp only [hr, if_false] at hc2
      exact hfit c2 hc2
  | swap | get | hold | getapp | holdapp | print | lineno | fillnext =>
    simpa [instruction.fitsAt] using hfit
  | branch target => simpa [instruction.fitsAt] using hfit
  | simplecond sc => simpa [instruction.fitsAt] using hfit
  | change guard text => simp [instruction.fitsAt]
  | appender text => simpa [instruction.fitsAt] using hfit
  | inserter text => simpa [instruction.fitsAt] using hfit

/-- One instruction of a well-formed program, run where the instruction
pointer points, leaves the instruction pointer inside the program and the
program well formed. -/
theorem ip_step_valid (prog : List instruction) (m : Machine) (i : instruction)
    (r : Machine × Option GoError) (hwf : WellFormed prog m.store)
    (hip : validIndex prog.length m.eng.ip) (hi : prog[m.eng.ip.toNat]? = some i)
    (hx : i.exec m = some r) :
    validIndex prog.length r.1.eng.ip ∧ WellFormed prog r.1.store := by
  have hfit := hwf _ i hi
  obtain ⟨h0, hL⟩ := hip
  have hnext : m.eng.ip.toNat + 1 < prog.length →
      validIndex prog.length (m.eng.ip + 1) := by
    intro h
    constructor
    · omega
    · have : (m.eng.ip.toNat : Int) = m.eng.ip := Int.toNat_of_nonneg h0
      omega
  have hzero : validIndex prog.length 0 := ⟨le_refl _, by omega⟩
  cases i with
  | swap | get | hold | getapp | holdapp =>
    simp only [instruction.exec, Option.some.injEq] at hx
    subst hx
    exact ⟨hnext (by simpa [instruction.fitsAt] using hfit), hwf⟩
  | lineno =>
    simp only [instruction.exec, Option.some.injEq] at hx
    subst hx
    exact ⟨hnext (by simpa [instruction.fitsAt] using hfit), hwf⟩
  | inserter text =>
    simp only [instruction.exec, Option.some.injEq] at hx
    subst hx
    exact ⟨hnext (by simpa [instruction.fitsAt] using hfit), hwf⟩
  | print =>
    simp only [instruction.exec, Option.some.injEq] at hx
    subst hx
    obtain ⟨o, err, hs⟩ := print_shape m.eng
    simp only [hs]
    exact ⟨hnext (by simpa [instruction.fitsAt] using hfit), hwf⟩
  | appender text =>
    simp only [instruction.exec, Option.some.injEq] at hx
    subst hx
    obtain ⟨q, hs⟩ := appender_shape text m.eng
    simp only [hs]
    exact ⟨hnext (by simpa [instruction.fitsAt] using hfit), hwf⟩
  | fillnext =>
    simp only [instruction.exec, Option.some.injEq] at hx
    subst hx
    refine ⟨?_, hwf⟩
    rcases fillnext_cases m.eng with ⟨o, err, hc⟩ | ⟨_, o, inp, nx, la, err, hc, _⟩
    · simp only [hc]; exact ⟨h0, hL⟩
    · simp only [hc]; exact hnext (by simpa [instruction.fitsAt] using hfit)
  | branch target =>
    simp only [instruction.exec, Option.some.injEq] at hx
    subst hx
    exact ⟨by simpa [instruction.fitsAt, cmd_newBranch] using hfit, hwf⟩
  | simplecond sc =>
    simp only [instruction.exec, Option.some.injEq] at hx
    subst hx
    simp only [instruction.fitsAt] at hfit
    simp only [simplecond_shape]
    refine ⟨?_, hwf⟩
    cases sc.cond m.eng
    · simpa using hfit.2
    · simpa using hfit.1
  | twocond ref =>
    simp only [instruction.exec] at hx
    simp only [instruction.fitsAt] at hfit
    cases hs : m.store[ref]? with
    | none => simp [hs] at hx
    | some c =>
      simp only [hs, Option.some.injEq] at hx
      subst hx
      have hstat := twocond_run_static c m.eng
      refine ⟨?_, WellFormed_set prog m.store ref c _ hs hstat.2.2.1 hstat.2.2.2 hwf⟩
      rcases (twocond_run_engine c m.eng).1 with he | he
      · simp only [he]; exact (hfit c hs).1
      · simp only [he]; exact (hfit c hs).2
  | change guard text =>
    cases guard with
    | none =>
      simp only [instruction.exec, Option.some.injEq] at hx
      subst hx
      obtain ⟨o, err, hs⟩ := change_shape none text m.eng
      simp only [hs]
      exact ⟨hzero, hwf⟩
    | some ref =>
      simp only [instruction.exec] at hx
      cases hs : m.store[ref]? with
      | none => simp [hs] at hx
      | some g =>
        simp only [hs, Option.some.injEq] at hx
        subst hx
        obtain ⟨o, err, hs2⟩ := change_shape (some g) text m.eng
        simp only [hs2]
        exact ⟨hzero, hwf⟩

/-- C16 (instruction pointer validity): in a program of length `L` in which
every branch target, met target and unmet target is an index below `L` and
every instruction that falls through sits at an index below `L - 1`, if the
instruction pointer is an index of the program (`0 ≤ ip < L`), then it is one
after the instruction at that index has been executed, whether that returns an
error or not; and so it is one in the machine reached after any number of steps
of a run, in particular of a run started at index 0. -/
theorem instruction_pointer_valid (prog : List instruction) (m : Machine)
    (hwf : WellFormed prog m.store) (hip : validIndex prog.length m.eng.ip) :
    (∀ (i : instruction) (r : Machine × Option GoError),
      prog[m.eng.ip.toNat]? = some i → i.exec m = some r →
      validIndex prog.length r.1.eng.ip) ∧
    (∀ fuel : Nat, validIndex prog.length (runLoop prog fuel m).machine.eng.ip) := by
  refine ⟨fun i r hi hx => (ip_step_valid prog m i r hwf hip hi hx).1, ?_⟩
  intro fuel
  have := runLoop_preserves
    (fun x => validIndex prog.length x.eng.ip ∧ WellFormed prog x.store) prog
    (fun i x r hx _ hi h => ip_step_valid prog x i r hx.2 hx.1 hi h) fuel m ⟨hip, hwf⟩
  exact this.1

/-- C16 on the program of the range and block-replace scenario, started at
index 0. -/
theorem instruction_pointer_valid_witness :
    (WellFormed (scenarioProgram "REPLACED\n")
        (Machine.mk { engineAt 0 with ip := 0 } [scenarioActivator 2 3]).store ∧
      validIndex (scenarioProgram "REPLACED\n").length
        (Machine.mk { engineAt 0 with ip := 0 } [scenarioActivator 2 3]).eng.ip) ∧
    (∀ fuel : Nat, validIndex (scenarioProgram "REPLACED\n").length
      (runLoop (scenarioProgram "REPLACED\n") fuel
        (Machine.mk { engineAt 0 with ip := 0 } [scenarioActivator 2 3])).machine.eng.ip) :=
  have hwf : WellFormed (scenarioProgram "REPLACED\n") [scenarioActivator 2 3] := by
    intro n i hi
    rcases n with _ | _ | _ | _ | _ | n <;>
      simp [scenarioProgram] at hi <;> subst hi <;>
      simp [instruction.fitsAt, validIndex, scenarioActivator, newTwoCond, scenarioProgram]
  ⟨⟨hwf, by unfold validIndex; decide⟩,
    (instruction_pointer_valid (scenarioProgram "REPLACED\n")
      (Machine.mk { engineAt 0 with ip := 0 } [scenarioActivator 2 3]) hwf
      (by unfold validIndex; decide)).2⟩

end Sed
